import Mathlib

/-!
Verification development for the referral subsystem (refdb.cpp, refmempool.cpp,
referrals.cpp): a shallow embedding of the persistent referral store, the ANV
propagation walk, the batch topological orderer, the referral mempool and the
write-through cache, together with theorems about the behaviours of those
functions.

Modelling conventions:
* 20-byte addresses and 32-byte hashes are modelled as `Nat` (opaque ids with
  decidable equality); `CAmount` is `Int`.
* The key-value engine is modelled as total maps per column; a `Write` in the
  model always succeeds (the source returns false on storage I/O failure, a
  case outside the algorithmic claims settled here).
* `assert` statements in the source are modelled as no-ops followed by the
  explicit control flow that the source itself contains (for example, in
  `InsertReferral` the failing assert is immediately followed by `return
  false`, which is the modelled outcome).
* Loops are modelled with explicit structural fuel so that every definition
  reduces in the kernel; each use supplies provably sufficient fuel.
-/

namespace Merit

/-- A referral record (primitives/referral): the beacon address, its small
integer address type, the public key id, its own code hash, the code hash of
the parent referral, and the parent beacon address. Transaction-like fields
that this subsystem never inspects (weight, signatures) are omitted. -/
structure Referral where
  address : Nat
  addressType : Nat
  pubKeyId : Nat
  codeHash : Nat
  previousReferral : Nat
  parentAddress : Nat
deriving DecidableEq, Repr

instance : Inhabited Referral := ⟨⟨0, 0, 0, 0, 0, 0⟩⟩

/-- An ANV record: address type, public key id, amount. -/
abbrev ANVTuple := Nat × Nat × Int

/-- Pointwise update of a keyed column. -/
def fupd {α : Type} (f : Nat → Option α) (k : Nat) (v : α) : Nat → Option α :=
  fun x => if x = k then some v else f x

/-- The referral database, one field per key-value column of refdb.cpp.
Column r holds referral records; it is keyed both by 20-byte beacon address
(`referrals`, written by InsertReferral) and by 32-byte code hash
(`referralsByHash`, read by the GetReferral overload that OrderReferrals
calls on `previousReferral`; its writer lives outside these sources).  The
two key widths serialize to disjoint byte strings, so they are modelled as
two maps.  Column p maps a child address to its parent address, column c maps
a parent address to the list of its children, column a maps an address to its
ANV record. -/
structure RefDB where
  referrals : Nat → Option Referral
  referralsByHash : Nat → Option Referral
  parents : Nat → Option Nat
  children : Nat → Option (List Nat)
  anv : Nat → Option ANVTuple

/-- ReferralsViewDB::GetReferral (by address): read column r. -/
def GetReferral (db : RefDB) (a : Nat) : Option Referral := db.referrals a

/-- ReferralsViewDB::GetReferrer: read column p. -/
def GetReferrer (db : RefDB) (a : Nat) : Option Nat := db.parents a

/-- ReferralsViewDB::GetChildren: read column c, empty when absent. -/
def GetChildren (db : RefDB) (a : Nat) : List Nat := (db.children a).getD []

/-- ReferralsViewDB::GetANV: read column a. -/
def GetANV (db : RefDB) (a : Nat) : Option ANVTuple := db.anv a

/-- ReferralsViewDB::InsertReferral.  Writes the referral under its address,
writes a zero ANV record under the public key id, then resolves the parent by
GetReferral on the parent address (against the store as already updated, as
the source does): when found it writes the child-to-parent pointer and
appends to the parent child list; when missing it fails unless
allow_no_parent.  The failing branch in the source is an assert followed by
`return false`; the partial writes remain. -/
def InsertReferral (db : RefDB) (r : Referral) (allow_no_parent : Bool) :
    Bool × RefDB :=
  let db1 : RefDB := { db with referrals := fupd db.referrals r.address r }
  let db2 : RefDB :=
    { db1 with anv := fupd db1.anv r.pubKeyId (r.addressType, r.pubKeyId, 0) }
  match db2.referrals r.parentAddress with
  | some parentReferral =>
      let pa := parentReferral.address
      let db3 : RefDB := { db2 with parents := fupd db2.parents r.address pa }
      let kids := (db3.children pa).getD []
      let db4 : RefDB :=
        { db3 with children := fupd db3.children pa (kids ++ [r.address]) }
      (true, db4)
  | none =>
      if allow_no_parent then (true, db2) else (false, db2)

/-- MAX_LEVELS from refdb.cpp: the largest size_t on a 64-bit platform. -/
def MAX_LEVELS : Nat := 2 ^ 64 - 1

/-- The loop body of ReferralsViewDB::UpdateANV.  At each address: read the
ANV record (failure aborts with false), add the signed change, write back,
then follow GetReferrer; the loop runs while an address remains and the level
counter stays below MAX_LEVELS.  The asserts on the record fields and the
final cycle assert are modelled as no-ops (see the file header). -/
def updateANVGo (change : Int) : Nat → Option Nat → RefDB → Bool × RefDB
  | _, none, db => (true, db)
  | 0, some _, db => (true, db)
  | fuel + 1, some a, db =>
      match db.anv a with
      | none => (false, db)
      | some (ty, pk, amt) =>
          let db' : RefDB := { db with anv := fupd db.anv a (ty, pk, amt + change) }
          updateANVGo change fuel (db'.parents a) db'

/-- ReferralsViewDB::UpdateANV: walk from the start address up the referrer
chain, adding the signed change to each ANV record. -/
def UpdateANV (db : RefDB) (_addressType : Nat) (start : Nat) (change : Int) :
    Bool × RefDB :=
  updateANVGo change MAX_LEVELS (some start) db

/-- Amount held in the ANV record of an address (0 when absent). -/
def anvAmount (db : RefDB) (a : Nat) : Int :=
  ((db.anv a).map (fun x => x.2.2)).getD 0

/-- A root path in the store: the list of addresses visited by following the
parent pointers from `start` until none remains. -/
def isRootPath (db : RefDB) : Nat → List Nat → Bool
  | _, [] => false
  | start, [a] => a = start && db.parents a == none
  | start, a :: b :: rest =>
      a = start && db.parents a == some b && isRootPath db b (b :: rest)

/-! ## The batch orderer (OrderReferrals)

The source calls std::partition, which the C++ standard specifies as an
UNSTABLE partition (relative order unspecified; std::stable_partition is the
stable variant).  We model the concrete algorithm used by GNU libstdc++ for
random access iterators: a Hoare style two-pointer sweep that swaps the first
failing element from the front with the last satisfying element from the
back.  `listSwap`, `findStopF`, `findBackF` and `partGo` transcribe that
loop; the fuel arguments are structural recursion fuel, one unit per loop
iteration, and every call site supplies provably sufficient fuel. -/

/-- Exchange the elements at positions i and j. -/
def listSwap {α : Type} [Inhabited α] (l : List α) (i j : Nat) : List α :=
  (l.set i (l.getD j default)).set j (l.getD i default)

/-- Front scan of the partition loop: starting from `first`, skip elements
satisfying the predicate; stop at the first failing index or at `last`. -/
def findStopF {α : Type} [Inhabited α] (p : α → Bool) (l : List α) :
    Nat → Nat → Nat → Nat
  | 0, first, _ => first
  | fuel + 1, first, last =>
      if first < last then
        if p (l.getD first default) then findStopF p l fuel (first + 1) last
        else first
      else first

/-- Back scan of the partition loop: from index j downward, skip elements
failing the predicate; return the first satisfying index, or `first` when the
scan meets it (which signals that the partition is finished). -/
def findBackF {α : Type} [Inhabited α] (p : α → Bool) (l : List α) :
    Nat → Nat → Nat → Nat
  | 0, first, _ => first
  | fuel + 1, first, j =>
      if first < j then
        if p (l.getD j default) then j else findBackF p l fuel first (j - 1)
      else first

/-- Outer loop of the libstdc++ partition for random access iterators. -/
def partGo {α : Type} [Inhabited α] (p : α → Bool) :
    Nat → List α → Nat → Nat → List α × Nat
  | 0, l, first, _ => (l, first)
  | fuel + 1, l, first, last =>
      let f := findStopF p l last first last
      if f = last then (l, f)
      else
        let j := findBackF p l last f (last - 1)
        if j = f then (l, f)
        else partGo p fuel (listSwap l f j) (f + 1) j

/-- std::partition over a whole list: returns the permuted list and the index
that splits the satisfying group from the failing group. -/
def hoarePartition {α : Type} [Inhabited α] (p : α → Bool) (l : List α) :
    List α × Nat :=
  partGo p l.length l 0 l.length

/-- The root test of OrderReferrals: the previous referral resolves in the
persistent store (GetReferral called on a code hash). -/
def storeOk (db : RefDB) (r : Referral) : Bool :=
  (db.referralsByHash r.previousReferral).isSome

/-- Graph phase one: every root code hash is bound to an empty child list. -/
def graphOfRoots (roots : List Referral) : Nat → Option (List Referral) :=
  roots.foldl (fun g r => fupd g r.codeHash []) (fun _ => none)

/-- Graph phase two: each interior referral is appended to the list keyed by
its previous referral hash. -/
def graphAdd (g : Nat → Option (List Referral)) (interior : List Referral) :
    Nat → Option (List Referral) :=
  interior.foldl
    (fun g r => fupd g r.previousReferral ((g r.previousReferral).getD [] ++ [r])) g

/-- The dependency graph of OrderReferrals. -/
def buildGraph (roots interior : List Referral) : Nat → Option (List Referral) :=
  graphAdd (graphOfRoots roots) interior

/-- Breadth first walk of OrderReferrals: pop the queue front into the next
output slot and append the children found under the popped code hash; stop
when the queue is empty or the output slots run out.  Returns the written
output and the remaining queue. -/
def bfsGo (g : Nat → Option (List Referral)) :
    Nat → List Referral → List Referral → List Referral × List Referral
  | 0, q, out => (out, q)
  | _ + 1, [], out => (out, [])
  | slots + 1, r :: q, out =>
      bfsGo g slots (q ++ (g r.codeHash).getD []) (out ++ [r])

/-- ReferralsViewDB::OrderReferrals.  Empty batches succeed; otherwise the
batch is partitioned into store-resolvable roots and interior referrals, the
dependency graph is built, and a breadth first walk rewrites the vector in
place; the call succeeds when every slot was rewritten and the queue drained.
On failure the partially rewritten vector remains. -/
def OrderReferrals (db : RefDB) (refs : List Referral) : Bool × List Referral :=
  if refs.isEmpty then (true, refs)
  else
    let pr := hoarePartition (storeOk db) refs
    let parted := pr.1
    let k := pr.2
    if k = 0 then (false, parted)
    else
      let roots := parted.take k
      let interior := parted.drop k
      let g := buildGraph roots interior
      let res := bfsGo g refs.length roots []
      let out := res.1
      let final := out ++ parted.drop out.length
      if out.length = refs.length && res.2.isEmpty then (true, final)
      else (false, final)

/-! ## The referral mempool (refmempool.cpp)

`mapRTx` is a multi-indexed set keyed by referral hash; its primary index is
modelled as an insertion-ordered list of entries (iteration order of the
hashed index is unspecified in the source; none of the settled claims depends
on it).  `mapLinks` maps an entry (through its hash) to the set of its
children; `setEntries` values are std::set ordered by hash, modelled as
strictly sorted lists of hashes.  A mempool entry is flattened to the fields
the subsystem reads: the referral hash (GetHash), the beacon address, the
parent address, and the entry time; weight, height and usage size are never
consulted by the operations below. -/

/-- A mempool entry. -/
structure MEntry where
  hash : Nat
  address : Nat
  parentAddress : Nat
  time : Int
deriving DecidableEq, Repr

instance : Inhabited MEntry := ⟨⟨0, 0, 0, 0⟩⟩

/-- The mempool state: the primary index and the parent-to-children links. -/
structure Pool where
  entries : List MEntry
  links : List (Nat × List Nat)
deriving DecidableEq, Repr

def emptyPool : Pool := ⟨[], []⟩

/-- Reasons passed to the removal notification. -/
inductive RemReason
  | expiry | block | reorg | conflict | replaced | unknown
deriving DecidableEq, Repr

/-- Observable steps of a mempool operation, in program order: the callback
firings, the lock transitions and the index mutations. -/
inductive MEvent
  | notifyAdded (h : Nat)
  | lockAcquire
  | insertPrimary (h : Nat)
  | createLinks (h : Nat)
  | linkChild (parent child : Nat)
  | notifyRemoved (h : Nat) (r : RemReason)
  | erasePrimary (h : Nat)
  | eraseLinks (h : Nat)
  | lockRelease
deriving DecidableEq, Repr

/-- mapRTx.find by hash. -/
def findByHash (es : List MEntry) (h : Nat) : Option MEntry :=
  es.find? (fun e => e.hash == h)

/-- The children recorded under a hash in mapLinks (empty when absent; the
source asserts presence in GetMemPoolChildren). -/
def linksLookup (p : Pool) (h : Nat) : List Nat :=
  ((p.links.find? (fun kv => kv.1 == h)).map (fun kv => kv.2)).getD []

/-- std::set insert on a strictly sorted list of naturals. -/
def insertSorted (x : Nat) : List Nat → List Nat
  | [] => [x]
  | y :: t =>
      if x < y then x :: y :: t
      else if x = y then y :: t
      else y :: insertSorted x t

/-- mapLinks[parent].children.insert(child): update the slot of the parent
hash, creating it when absent (std::map operator[] semantics). -/
def linksAddChild (ls : List (Nat × List Nat)) (pa c : Nat) :
    List (Nat × List Nat) :=
  if (ls.find? (fun kv => kv.1 == pa)).isSome then
    ls.map (fun kv => if kv.1 == pa then (kv.1, insertSorted c kv.2) else kv)
  else ls ++ [(pa, [c])]

/-- ReferralTxMemPool::AddUnchecked.  The notification fires first, then the
lock is taken, the entry is inserted into the primary index, an empty links
slot is created, and the whole pool is scanned for the first entry whose
address equals the new parent address; when found the new entry is registered
as its child.  Duplicate hashes are not re-inserted (hashed_unique index).
The event list records the steps in program order. -/
def AddUnchecked (p : Pool) (e : MEntry) : Pool × List MEvent :=
  let entries1 :=
    if (findByHash p.entries e.hash).isSome then p.entries else p.entries ++ [e]
  let links1 :=
    if (p.links.find? (fun kv => kv.1 == e.hash)).isSome then p.links
    else p.links ++ [(e.hash, [])]
  match entries1.find? (fun pe => pe.address == e.parentAddress) with
  | some pe =>
      (⟨entries1, linksAddChild links1 pe.hash e.hash⟩,
        [MEvent.notifyAdded e.hash, MEvent.lockAcquire,
         MEvent.insertPrimary e.hash, MEvent.createLinks e.hash,
         MEvent.linkChild pe.hash e.hash, MEvent.lockRelease])
  | none =>
      (⟨entries1, links1⟩,
        [MEvent.notifyAdded e.hash, MEvent.lockAcquire,
         MEvent.insertPrimary e.hash, MEvent.createLinks e.hash,
         MEvent.lockRelease])

/-- The pool reached from empty by a sequence of AddUnchecked calls. -/
def buildPool (es : List MEntry) : Pool :=
  es.foldl (fun p e => (AddUnchecked p e).1) emptyPool

/-- Worklist loop of ReferralTxMemPool::CalculateDescendants: pop the
smallest staged hash, add it to the accumulated descendant set, and stage
each of its children not already accounted for. -/
def calcDescGo (p : Pool) : Nat → List Nat → List Nat → List Nat
  | 0, _, acc => acc
  | fuel + 1, stage, acc =>
      match stage with
      | [] => acc
      | it :: rest =>
          let acc2 := insertSorted it acc
          let stage2 :=
            (linksLookup p it).foldl
              (fun s c => if c ∈ acc2 then s else insertSorted c s) rest
          calcDescGo p fuel stage2 acc2

/-- Total length of all child lists, a bound on the worklist iterations. -/
def totalChildren (p : Pool) : Nat :=
  (p.links.map (fun kv => kv.2.length)).sum

/-- ReferralTxMemPool::CalculateDescendants: stage the seed unless already
accounted for, then run the worklist to a fixpoint. -/
def CalculateDescendants (p : Pool) (h : Nat) (acc : List Nat) : List Nat :=
  calcDescGo p (totalChildren p + 2) (if h ∈ acc then [] else [h]) acc

/-- ReferralTxMemPool::RemoveUnchecked: notify, erase from the primary index,
erase the links slot. -/
def RemoveUnchecked (p : Pool) (h : Nat) (reason : RemReason) :
    Pool × List MEvent :=
  (⟨p.entries.filter (fun e => e.hash ≠ h),
    p.links.filter (fun kv => kv.1 ≠ h)⟩,
   [MEvent.notifyRemoved h reason, MEvent.erasePrimary h, MEvent.eraseLinks h])

/-- ReferralTxMemPool::RemoveStaged: RemoveUnchecked over the staged set, in
its (hash sorted) iteration order. -/
def RemoveStaged (p : Pool) (stage : List Nat) (reason : RemReason) :
    Pool × List MEvent :=
  stage.foldl
    (fun acc h =>
      let r := RemoveUnchecked acc.1 h reason
      (r.1, acc.2 ++ r.2))
    (p, [])

/-- ReferralTxMemPool::RemoveRecursive: locate the entry by hash; when
present, remove its descendant closure. -/
def RemoveRecursive (p : Pool) (refHash : Nat) (reason : RemReason) :
    Pool × List MEvent :=
  match findByHash p.entries refHash with
  | none => (p, [])
  | some origit =>
      RemoveStaged p (CalculateDescendants p origit.hash []) reason

/-- ReferralTxMemPool::Expire: collect the hashes of entries older than the
given time (the time index scan), close under descendants, remove the union
and return its size. -/
def Expire (p : Pool) (t : Int) : Pool × List MEvent × Nat :=
  let toRemove :=
    (p.entries.filter (fun e => e.time < t)).foldl
      (fun s e => insertSorted e.hash s) []
  let stage := toRemove.foldl (fun acc h => CalculateDescendants p h acc) []
  let r := RemoveStaged p stage RemReason.expiry
  (r.1, r.2, stage.length)

/-! ## The write-through cache (referrals.cpp) -/

/-- ReferralsViewCache state: the referral-by-address map and the
wallet-to-referrer map (unordered maps, modelled as association lists in
iteration order). -/
structure Cache where
  referral_cache : List (Nat × Referral)
  wallet_to_referrer : List (Nat × Nat)
deriving Repr

/-- Lookup in the wallet-to-referrer map (the read that GetReferrer and
WalletIdExists perform under the cache lock). -/
def walletLookup (c : Cache) (a : Nat) : Option Nat :=
  ((c.wallet_to_referrer.find? (fun kv => kv.1 == a)).map (fun kv => kv.2))

/-- ReferralsViewCache::Fetch: lookup in the referral map. -/
def cacheFetch (c : Cache) (a : Nat) : Option Referral :=
  ((c.referral_cache.find? (fun kv => kv.1 == a)).map (fun kv => kv.2))

/-- ReferralsViewCache::Flush: call InsertReferral on the store once per
cached referral, in map iteration order, then clear the referral map.  The
wallet-to-referrer map is untouched.  Returns the new cache, the new store
and the list of referrals passed to InsertReferral. -/
def Flush (c : Cache) (db : RefDB) : Cache × RefDB × List Referral :=
  let calls := c.referral_cache.map (fun pr => pr.2)
  let db' := calls.foldl (fun d r => (InsertReferral d r false).2) db
  (⟨[], c.wallet_to_referrer⟩, db', calls)

/-! ## Facts about the partition sweep -/

section PartitionLemmas

variable {α : Type} [Inhabited α]

/-- Prepending the element at position j in front of the list with position j
overwritten is a permutation of prepending the overwriting value. -/
theorem cons_set_perm :
    ∀ (t : List α) (j : Nat) (a : α), j < t.length →
      (t.getD j default :: t.set j a).Perm (a :: t) := by
  intro t
  induction t with
  | nil => intro j a hj; exact absurd hj (by simp)
  | cons b t' ih =>
      intro j a hj
      cases j with
      | zero => simpa using List.Perm.swap a b t'
      | succ j =>
          have hj' : j < t'.length := by simpa using hj
          have step1 : (t'.getD j default :: b :: t'.set j a).Perm
              (b :: t'.getD j default :: t'.set j a) := List.Perm.swap b _ _
          have step2 : (b :: t'.getD j default :: t'.set j a).Perm (b :: a :: t') :=
            (ih j a hj').cons b
          have step3 : (b :: a :: t').Perm (a :: b :: t') := List.Perm.swap a b t'
          simpa using (step1.trans step2).trans step3

/-- Overwriting a position with its own content is the identity. -/
theorem set_getD_self : ∀ (l : List α) (i : Nat), l.set i (l.getD i default) = l := by
  intro l
  induction l with
  | nil => intro i; rfl
  | cons c t ih =>
      intro i
      cases i with
      | zero => rfl
      | succ i => simpa using ih i

/-- Exchanging two positions permutes the list. -/
theorem listSwap_perm :
    ∀ (l : List α) (i j : Nat), i < l.length → j < l.length →
      (listSwap l i j).Perm l := by
  intro l
  induction l with
  | nil => intro i j hi; exact absurd hi (by simp)
  | cons c t ih =>
      intro i j hi hj
      cases i with
      | zero =>
          cases j with
          | zero => simp [listSwap, set_getD_self]
          | succ j =>
              have hj' : j < t.length := by simpa using hj
              have : listSwap (c :: t) 0 (j + 1) = t.getD j default :: t.set j c := by
                simp [listSwap]
              rw [this]
              exact cons_set_perm t j c hj'
      | succ i =>
          cases j with
          | zero =>
              have hi' : i < t.length := by simpa using hi
              have : listSwap (c :: t) (i + 1) 0 = t.getD i default :: t.set i c := by
                simp [listSwap]
              rw [this]
              exact cons_set_perm t i c hi'
          | succ j =>
              have : listSwap (c :: t) (i + 1) (j + 1) = c :: listSwap t i j := by
                simp [listSwap]
              rw [this]
              exact (ih i j (by simpa using hi) (by simpa using hj)).cons c

/-- Length is preserved by the exchange. -/
theorem listSwap_length (l : List α) (i j : Nat) :
    (listSwap l i j).length = l.length := by
  simp [listSwap]

/-- Pointwise description of the exchanged list. -/
theorem listSwap_getElem? (l : List α) (i j n : Nat)
    (hi : i < l.length) (hj : j < l.length) :
    (listSwap l i j)[n]? =
      if j = n then some (l.getD i default)
      else if i = n then some (l.getD j default)
      else l[n]? := by
  rw [listSwap, List.getElem?_set, List.getElem?_set]
  by_cases hjn : j = n
  · subst hjn
    simp [List.length_set, hj]
  · by_cases hin : i = n
    · subst hin
      simp [hjn, hi]
    · simp [hjn, hin]

/-- Pointwise description via getD. -/
theorem listSwap_getD (l : List α) (i j n : Nat)
    (hi : i < l.length) (hj : j < l.length) :
    (listSwap l i j).getD n default =
      if j = n then l.getD i default
      else if i = n then l.getD j default
      else l.getD n default := by
  rw [List.getD_eq_getElem?_getD, listSwap_getElem? l i j n hi hj]
  by_cases hjn : j = n
  · simp [hjn]
  · by_cases hin : i = n <;> simp [hjn, hin, List.getD_eq_getElem?_getD]

/-- Specification of the front scan: it stays inside the range, everything it
skipped satisfies the predicate, and unless it hit the range end it stops on
a failing element. -/
theorem findStopF_spec (p : α → Bool) (l : List α) :
    ∀ (fuel first last : Nat), first ≤ last → last - first ≤ fuel →
      first ≤ findStopF p l fuel first last ∧
      findStopF p l fuel first last ≤ last ∧
      (∀ i, first ≤ i → i < findStopF p l fuel first last →
        p (l.getD i default) = true) ∧
      (findStopF p l fuel first last < last →
        p (l.getD (findStopF p l fuel first last) default) = false) := by
  intro fuel
  induction fuel with
  | zero =>
      intro first last hfl hfuel
      have : first = last := by omega
      subst this
      exact ⟨le_refl _, le_refl _, fun i h1 h2 => by
        simp [findStopF] at h2; omega, fun h => by simp [findStopF] at h⟩
  | succ fuel ih =>
      intro first last hfl hfuel
      by_cases hlt : first < last
      · by_cases hp : p (l.getD first default) = true
        · have hred : findStopF p l (fuel + 1) first last =
              findStopF p l fuel (first + 1) last := by
            simp only [findStopF]
            rw [if_pos hlt, if_pos hp]
          obtain ⟨ha, hb, hc, hd⟩ := ih (first + 1) last (by omega) (by omega)
          rw [hred]
          refine ⟨by omega, hb, ?_, hd⟩
          intro i h1 h2
          by_cases hif : i = first
          · subst hif; exact hp
          · exact hc i (by omega) h2
        · have hred : findStopF p l (fuel + 1) first last = first := by
            simp only [findStopF]
            rw [if_pos hlt, if_neg hp]
          have hpf : p (l.getD first default) = false := by
            cases hpc : p (l.getD first default) with
            | false => rfl
            | true => exact absurd hpc hp
          rw [hred]
          exact ⟨le_refl _, by omega, fun i h1 h2 => by omega, fun _ => hpf⟩
      · have : first = last := by omega
        subst this
        have hred : findStopF p l (fuel + 1) first first = first := by
          simp only [findStopF]
          rw [if_neg hlt]
        rw [hred]
        exact ⟨le_refl _, le_refl _, fun i h1 h2 => by omega, fun h => by omega⟩

/-- Specification of the back scan: either it met the left end, with every
scanned element failing, or it stopped strictly inside on a satisfying
element with everything above it failing. -/
theorem findBackF_spec (p : α → Bool) (l : List α) :
    ∀ (fuel first j : Nat), j - first ≤ fuel →
      (findBackF p l fuel first j = first ∧
        (∀ i, first < i → i ≤ j → p (l.getD i default) = false)) ∨
      (first < findBackF p l fuel first j ∧
        findBackF p l fuel first j ≤ j ∧
        p (l.getD (findBackF p l fuel first j) default) = true ∧
        (∀ i, findBackF p l fuel first j < i → i ≤ j →
          p (l.getD i default) = false)) := by
  intro fuel
  induction fuel with
  | zero =>
      intro first j hfuel
      left
      refine ⟨by simp [findBackF], ?_⟩
      intro i h1 h2
      omega
  | succ fuel ih =>
      intro first j hfuel
      by_cases hlt : first < j
      · by_cases hp : p (l.getD j default) = true
        · right
          have hred : findBackF p l (fuel + 1) first j = j := by
            simp only [findBackF]
            rw [if_pos hlt, if_pos hp]
          rw [hred]
          exact ⟨hlt, le_refl _, hp, fun i h1 h2 => by omega⟩
        · have hred : findBackF p l (fuel + 1) first j =
              findBackF p l fuel first (j - 1) := by
            simp only [findBackF]
            rw [if_pos hlt, if_neg hp]
          rw [hred]
          have hpf : p (l.getD j default) = false := by
            cases hpc : p (l.getD j default) with
            | false => rfl
            | true => exact absurd hpc hp
          rcases ih first (j - 1) (by omega) with ⟨h1, h2⟩ | ⟨h1, h2, h3, h4⟩
          · left
            refine ⟨h1, ?_⟩
            intro i hi1 hi2
            by_cases hij : i = j
            · subst hij; exact hpf
            · exact h2 i hi1 (by omega)
          · right
            refine ⟨h1, by omega, h3, ?_⟩
            intro i hi1 hi2
            by_cases hij : i = j
            · subst hij; exact hpf
            · exact h4 i hi1 (by omega)
      · left
        have hred : findBackF p l (fuel + 1) first j = first := by
          simp only [findBackF]
          rw [if_neg hlt]
        rw [hred]
        exact ⟨rfl, fun i h1 h2 => by omega⟩

/-- Main specification of the partition sweep: the result is a permutation of
the input of the same length, the split point lies in the working range, and
the predicate holds strictly below the split point and fails from it on. -/
theorem partGo_spec (p : α → Bool) :
    ∀ (fuel : Nat) (l : List α) (first last : Nat),
      first ≤ last → last ≤ l.length → last - first ≤ fuel →
      (∀ i, i < first → p (l.getD i default) = true) →
      (∀ i, last ≤ i → i < l.length → p (l.getD i default) = false) →
      (partGo p fuel l first last).1.Perm l ∧
      (partGo p fuel l first last).1.length = l.length ∧
      first ≤ (partGo p fuel l first last).2 ∧
      (partGo p fuel l first last).2 ≤ last ∧
      (∀ i, i < (partGo p fuel l first last).2 →
        p ((partGo p fuel l first last).1.getD i default) = true) ∧
      (∀ i, (partGo p fuel l first last).2 ≤ i → i < l.length →
        p ((partGo p fuel l first last).1.getD i default) = false) := by
  intro fuel
  induction fuel with
  | zero =>
      intro l first last hfl hll hfuel hpre hpost
      have : first = last := by omega
      subst this
      exact ⟨List.Perm.refl l, rfl, le_refl _, le_refl _,
        fun i hi => hpre i hi, fun i hi1 hi2 => hpost i hi1 hi2⟩
  | succ fuel ih =>
      intro l first last hfl hll hfuel hpre hpost
      obtain ⟨hf1, hf2, hf3, hf4⟩ :=
        findStopF_spec p l last first last hfl (by omega)
      by_cases hfeq : findStopF p l last first last = last
      · have hred : partGo p (fuel + 1) l first last = (l, last) := by
          simp only [partGo]
          rw [if_pos hfeq, hfeq]
        rw [hred]
        refine ⟨List.Perm.refl l, rfl, by omega, le_refl _, ?_, ?_⟩
        · intro i hi
          by_cases hfir : i < first
          · exact hpre i hfir
          · exact hf3 i (by omega) (by omega)
        · intro i hi1 hi2
          exact hpost i hi1 hi2
      · have hflt : findStopF p l last first last < last := by omega
        have hpff : p (l.getD (findStopF p l last first last) default) = false :=
          hf4 hflt
        rcases findBackF_spec p l last (findStopF p l last first last) (last - 1)
            (by omega) with ⟨hb1, hb2⟩ | ⟨hb1, hb2, hb3, hb4⟩
        · have hred : partGo p (fuel + 1) l first last =
              (l, findStopF p l last first last) := by
            simp only [partGo]
            rw [if_neg hfeq, if_pos hb1]
          rw [hred]
          refine ⟨List.Perm.refl l, rfl, hf1, by omega, ?_, ?_⟩
          · intro i hi
            by_cases hfir : i < first
            · exact hpre i hfir
            · exact hf3 i (by omega) hi
          · intro i hi1 hi2
            by_cases hlast : last ≤ i
            · exact hpost i hlast hi2
            · by_cases hieq : i = findStopF p l last first last
              · subst hieq; exact hpff
              · exact hb2 i (by omega) (by omega)
        · have hjne : findBackF p l last (findStopF p l last first last) (last - 1) ≠
              findStopF p l last first last := by omega
          set f := findStopF p l last first last with hfdef
          set j := findBackF p l last f (last - 1) with hjdef
          have hred : partGo p (fuel + 1) l first last =
              partGo p fuel (listSwap l f j) (f + 1) j := by
            simp only [partGo]
            rw [← hfdef, ← hjdef, if_neg hfeq, if_neg hjne]
          have hjlt : j < l.length := by omega
          have hflt2 : f < l.length := by omega
          have hswap := listSwap_perm l f j hflt2 hjlt
          have hswlen : (listSwap l f j).length = l.length := listSwap_length l f j
          have hpre2 : ∀ i, i < f + 1 → p ((listSwap l f j).getD i default) = true := by
            intro i hi
            rw [listSwap_getD l f j i hflt2 hjlt]
            by_cases hji : j = i
            · omega
            · by_cases hfi : f = i
              · rw [if_neg hji, if_pos hfi]
                exact hb3
              · rw [if_neg hji, if_neg hfi]
                by_cases hfir : i < first
                · exact hpre i hfir
                · exact hf3 i (by omega) (by omega)
          have hpost2 : ∀ i, j ≤ i → i < (listSwap l f j).length →
              p ((listSwap l f j).getD i default) = false := by
            intro i hi1 hi2
            rw [hswlen] at hi2
            rw [listSwap_getD l f j i hflt2 hjlt]
            by_cases hji : j = i
            · rw [if_pos hji]
              exact hpff
            · by_cases hfi : f = i
              · omega
              · rw [if_neg hji, if_neg hfi]
                by_cases hlast : last ≤ i
                · exact hpost i hlast hi2
                · exact hb4 i (by omega) (by omega)
          obtain ⟨ha, hb, hc, hd, he, hf⟩ :=
            ih (listSwap l f j) (f + 1) j (by omega) (by omega) (by omega)
              hpre2 hpost2
          rw [hred]
          refine ⟨ha.trans hswap, by rw [hb, hswlen], by omega, by omega, he, ?_⟩
          intro i hi1 hi2
          exact hf i hi1 (by rw [hswlen]; exact hi2)

/-- The partition of a whole list: permutation, length, split bound and the
predicate split at the returned index. -/
theorem hoarePartition_spec (p : α → Bool) (l : List α) :
    (hoarePartition p l).1.Perm l ∧
    (hoarePartition p l).1.length = l.length ∧
    (hoarePartition p l).2 ≤ l.length ∧
    (∀ i, i < (hoarePartition p l).2 →
      p ((hoarePartition p l).1.getD i default) = true) ∧
    (∀ i, (hoarePartition p l).2 ≤ i → i < l.length →
      p ((hoarePartition p l).1.getD i default) = false) := by
  obtain ⟨h1, h2, _h3, h4, h5, h6⟩ :=
    partGo_spec p l.length l 0 l.length (by omega) (le_refl _) (by omega)
      (fun i hi => absurd hi (by omega)) (fun i hi1 hi2 => absurd hi1 (by omega))
  exact ⟨h1, h2, h4, h5, h6⟩

end PartitionLemmas

/-! ## Mempool helper lemmas: sorted set insertion and the descendants
worklist -/

/-- Membership in a set insertion. -/
theorem mem_insertSorted (x c : Nat) :
    ∀ (l : List Nat), x ∈ insertSorted c l ↔ x = c ∨ x ∈ l := by
  intro l
  induction l with
  | nil => simp [insertSorted]
  | cons y t ih =>
      by_cases h1 : c < y
      · simp [insertSorted, h1]
      · by_cases h2 : c = y
        · subst h2
          simp [insertSorted, h1]
        · simp only [insertSorted, if_neg h1, if_neg h2, List.mem_cons, ih]
          tauto

/-- Set insertion preserves strict sortedness. -/
theorem sorted_insertSorted (c : Nat) :
    ∀ (l : List Nat), l.Sorted (· < ·) → (insertSorted c l).Sorted (· < ·) := by
  intro l
  induction l with
  | nil => intro _; simp [insertSorted]
  | cons y t ih =>
      intro hs
      rw [List.sorted_cons] at hs
      obtain ⟨hy, ht⟩ := hs
      by_cases h1 : c < y
      · rw [insertSorted, if_pos h1, List.sorted_cons]
        refine ⟨?_, by rw [List.sorted_cons]; exact ⟨hy, ht⟩⟩
        intro b hb
        rcases List.mem_cons.mp hb with rfl | hbt
        · exact h1
        · exact lt_trans h1 (hy b hbt)
      · by_cases h2 : c = y
        · rw [insertSorted, if_neg h1, if_pos h2, List.sorted_cons]
          exact ⟨hy, ht⟩
        · rw [insertSorted, if_neg h1, if_neg h2, List.sorted_cons]
          refine ⟨?_, ih ht⟩
          intro b hb
          rcases (mem_insertSorted b c t).mp hb with rfl | hbt
          · omega
          · exact hy b hbt

/-- Strictly sorted lists have no duplicates. -/
theorem sorted_nodup (l : List Nat) (h : l.Sorted (· < ·)) : l.Nodup :=
  h.nodup

/-- An element of a list sits at some position. -/
theorem mem_getD {α : Type} [Inhabited α] {l : List α} {x : α} (hx : x ∈ l) :
    ∃ j, j < l.length ∧ l.getD j default = x := by
  obtain ⟨n, hn, hval⟩ := List.mem_iff_getElem.mp hx
  exact ⟨n, hn, by rw [List.getD_eq_getElem l default hn, hval]⟩

/-- Membership across the child staging fold of the worklist. -/
theorem stageFold_mem (acc2 : List Nat) :
    ∀ (ch s : List Nat) (x : Nat),
      x ∈ ch.foldl (fun s c => if c ∈ acc2 then s else insertSorted c s) s ↔
        x ∈ s ∨ (x ∈ ch ∧ x ∉ acc2) := by
  intro ch
  induction ch with
  | nil => intro s x; simp
  | cons c rest ih =>
      intro s x
      show x ∈ rest.foldl _ (if c ∈ acc2 then s else insertSorted c s) ↔ _
      rw [ih]
      by_cases hc : c ∈ acc2
      · rw [if_pos hc]
        constructor
        · rintro (hx | hx)
          · exact Or.inl hx
          · exact Or.inr ⟨List.mem_cons_of_mem c hx.1, hx.2⟩
        · rintro (hx | ⟨hx1, hx2⟩)
          · exact Or.inl hx
          · rcases List.mem_cons.mp hx1 with rfl | hx1
            · exact absurd hc hx2
            · exact Or.inr ⟨hx1, hx2⟩
      · rw [if_neg hc]
        rw [mem_insertSorted]
        constructor
        · rintro ((rfl | hx) | hx)
          · exact Or.inr ⟨List.mem_cons_self _ rest, hc⟩
          · exact Or.inl hx
          · exact Or.inr ⟨List.mem_cons_of_mem c hx.1, hx.2⟩
        · rintro (hx | ⟨hx1, hx2⟩)
          · exact Or.inl (Or.inr hx)
          · rcases List.mem_cons.mp hx1 with rfl | hx1
            · exact Or.inl (Or.inl rfl)
            · exact Or.inr ⟨hx1, hx2⟩

/-- The child staging fold preserves strict sortedness. -/
theorem stageFold_sorted (acc2 : List Nat) :
    ∀ (ch s : List Nat), s.Sorted (· < ·) →
      (ch.foldl (fun s c => if c ∈ acc2 then s else insertSorted c s) s).Sorted
        (· < ·) := by
  intro ch
  induction ch with
  | nil => intro s hs; exact hs
  | cons c rest ih =>
      intro s hs
      show (rest.foldl _ (if c ∈ acc2 then s else insertSorted c s)).Sorted _
      by_cases hc : c ∈ acc2
      · rw [if_pos hc]; exact ih s hs
      · rw [if_neg hc]; exact ih _ (sorted_insertSorted c s hs)

/-- The child link relation of the mempool links map, and its reflexive
transitive closure: the descendants relation the spec describes as a breadth
first walk over the links map. -/
def ChildLink (p : Pool) (a b : Nat) : Prop := b ∈ linksLookup p a

/-- Hash b is a mempool descendant of hash a (through the links map). -/
def LinkDesc (p : Pool) (a b : Nat) : Prop :=
  Relation.ReflTransGen (ChildLink p) a b

/-- The accumulated set only grows along the worklist. -/
theorem calcDescGo_mono (p : Pool) :
    ∀ (fuel : Nat) (stage acc : List Nat) (x : Nat),
      x ∈ acc → x ∈ calcDescGo p fuel stage acc := by
  intro fuel
  induction fuel with
  | zero => intro stage acc x hx; exact hx
  | succ fuel ih =>
      intro stage acc x hx
      cases stage with
      | nil => exact hx
      | cons it rest =>
          exact ih _ _ x ((mem_insertSorted x it acc).mpr (Or.inr hx))

/-- The worklist result stays strictly sorted. -/
theorem calcDescGo_sorted (p : Pool) :
    ∀ (fuel : Nat) (stage acc : List Nat), acc.Sorted (· < ·) →
      (calcDescGo p fuel stage acc).Sorted (· < ·) := by
  intro fuel
  induction fuel with
  | zero => intro stage acc hs; exact hs
  | succ fuel ih =>
      intro stage acc hs
      cases stage with
      | nil => exact hs
      | cons it rest => exact ih _ _ (sorted_insertSorted it acc hs)

/-- Soundness of the worklist: everything it adds is reachable from the
staged hashes (for any predicate closed under child links and true on the
stage). -/
theorem calcDescGo_sound (p : Pool) (P : Nat → Prop)
    (hP : ∀ a b, P a → ChildLink p a b → P b) :
    ∀ (fuel : Nat) (stage acc : List Nat),
      (∀ x ∈ stage, P x) →
      ∀ x ∈ calcDescGo p fuel stage acc, x ∈ acc ∨ P x := by
  intro fuel
  induction fuel with
  | zero => intro stage acc _ x hx; exact Or.inl hx
  | succ fuel ih =>
      intro stage acc hstage x hx
      cases stage with
      | nil => exact Or.inl hx
      | cons it rest =>
          have hit : P it := hstage it (List.mem_cons_self it rest)
          have hstage2 : ∀ y ∈ (linksLookup p it).foldl
              (fun s c => if c ∈ insertSorted it acc then s else insertSorted c s)
              rest, P y := by
            intro y hy
            rcases (stageFold_mem _ _ _ y).mp hy with hyr | ⟨hyc, _⟩
            · exact hstage y (List.mem_cons_of_mem it hyr)
            · exact hP it y hit hyc
          rcases ih _ _ hstage2 x hx with hxa | hxP
          · rcases (mem_insertSorted x it acc).mp hxa with rfl | hxacc
            · exact Or.inr hit
            · exact Or.inl hxacc
          · exact Or.inr hxP

/-- All hashes appearing in some child list. -/
def childUniverse (ls : List (Nat × List Nat)) : List Nat :=
  ls.foldr (fun kv r => kv.2 ++ r) []

/-- The universe of child hashes has the total length of the child lists. -/
theorem childUniverse_length (ls : List (Nat × List Nat)) :
    (childUniverse ls).length = (ls.map (fun kv => kv.2.length)).sum := by
  induction ls with
  | nil => rfl
  | cons kv rest ih =>
      have h1 : childUniverse (kv :: rest) = kv.2 ++ childUniverse rest := rfl
      rw [h1, List.length_append, ih, List.map_cons, List.sum_cons]

/-- Every child hash of every slot lies in the universe. -/
theorem mem_childUniverse (ls : List (Nat × List Nat)) :
    ∀ kv ∈ ls, ∀ c ∈ kv.2, c ∈ childUniverse ls := by
  induction ls with
  | nil => intro kv hkv; exact absurd hkv (by simp)
  | cons kv0 rest ih =>
      intro kv hkv c hc
      rcases List.mem_cons.mp hkv with rfl | hkv
      · exact List.mem_append_left _ hc
      · exact List.mem_append_right _ (ih kv hkv c hc)

/-- A child link always lands in the universe of the links map. -/
theorem childLink_mem_universe (p : Pool) (a c : Nat) (h : ChildLink p a c) :
    c ∈ childUniverse p.links := by
  rw [ChildLink, linksLookup] at h
  cases hf : p.links.find? (fun kv => kv.1 == a) with
  | none => rw [hf] at h; exact absurd h (by simp)
  | some kv =>
      rw [hf] at h
      exact mem_childUniverse p.links kv (List.mem_of_find?_eq_some hf) c h

/-- Filtering with a weaker predicate keeps at most as many elements. -/
theorem filter_length_mono {α : Type} (f g : α → Bool) :
    ∀ (l : List α), (∀ x ∈ l, f x = true → g x = true) →
      (l.filter f).length ≤ (l.filter g).length := by
  intro l
  induction l with
  | nil => intro _; simp
  | cons a t ih =>
      intro h
      have ht := ih (fun x hx => h x (List.mem_cons_of_mem a hx))
      cases hfa : f a
      · cases hga : g a <;> simp [List.filter_cons, hfa, hga] <;> omega
      · have hga : g a = true := h a (List.mem_cons_self a t) hfa
        simp [List.filter_cons, hfa, hga]
        omega

/-- Filtering with a strictly weaker predicate (one witness lost) keeps
strictly fewer elements, over a duplicate-free list. -/
theorem filter_length_strict {α : Type} (f g : α → Bool) :
    ∀ (l : List α), l.Nodup →
      ∀ a ∈ l, g a = true → f a = false →
      (∀ x ∈ l, f x = true → g x = true) →
      (l.filter f).length < (l.filter g).length := by
  intro l
  induction l with
  | nil => intro _ a ha; exact absurd ha (by simp)
  | cons b t ih =>
      intro hnd a ha hga hfa h
      have hmono := filter_length_mono f g t
        (fun x hx => h x (List.mem_cons_of_mem b hx))
      rcases List.mem_cons.mp ha with rfl | hat
      · simp [List.filter_cons, hfa, hga]
        omega
      · cases hfb : f b
        · cases hgb : g b
          · simp only [List.filter_cons, hfb, hgb, Bool.false_eq_true, if_false]
            exact ih (List.nodup_cons.mp hnd).2 a hat hga hfa
              (fun x hx => h x (List.mem_cons_of_mem b hx))
          · simp only [List.filter_cons, hfb, hgb, Bool.false_eq_true, if_false,
              if_true, List.length_cons]
            have := ih (List.nodup_cons.mp hnd).2 a hat hga hfa
              (fun x hx => h x (List.mem_cons_of_mem b hx))
            omega
        · have hgb : g b = true := h b (List.mem_cons_self b t) hfb
          simp only [List.filter_cons, hfb, hgb, if_true, List.length_cons]
          have := ih (List.nodup_cons.mp hnd).2 a hat hga hfa
            (fun x hx => h x (List.mem_cons_of_mem b hx))
          omega

/-- Completeness of the worklist with sufficient fuel: the staged hashes end
up in the result, and the result is closed under child links. -/
theorem calcDescGo_complete (p : Pool) (U : List Nat)
    (hU : ∀ a c, ChildLink p a c → c ∈ U) :
    ∀ (fuel : Nat) (stage acc : List Nat),
      stage.Sorted (· < ·) → acc.Sorted (· < ·) →
      (∀ x ∈ stage, x ∈ U) →
      (∀ x ∈ stage, x ∉ acc) →
      (∀ y ∈ acc, ∀ c, ChildLink p y c → c ∈ acc ∨ c ∈ stage) →
      (U.dedup.filter (fun u => decide (¬ u ∈ acc))).length + 1 ≤ fuel →
      (∀ x ∈ stage, x ∈ calcDescGo p fuel stage acc) ∧
      (∀ y ∈ calcDescGo p fuel stage acc, ∀ c, ChildLink p y c →
        c ∈ calcDescGo p fuel stage acc) := by
  intro fuel
  induction fuel with
  | zero =>
      intro stage acc _ _ _ _ _ hfuel
      exact absurd hfuel (by omega)
  | succ fuel ih =>
      intro stage acc hss hsa hstageU hdisj hclosed hfuel
      cases stage with
      | nil =>
          refine ⟨fun x hx => absurd hx (by simp), ?_⟩
          intro y hy c hc
          rcases hclosed y hy c hc with h | h
          · exact h
          · exact absurd h (by simp)
      | cons it rest =>
          rw [List.sorted_cons] at hss
          obtain ⟨hit_lt, hrest_sorted⟩ := hss
          have hitacc : it ∉ acc := hdisj it (List.mem_cons_self it rest)
          have hitacc2 : it ∈ insertSorted it acc :=
            (mem_insertSorted it it acc).mpr (Or.inl rfl)
          have hmono_acc : ∀ x, x ∈ acc → x ∈ insertSorted it acc :=
            fun x hx => (mem_insertSorted x it acc).mpr (Or.inr hx)
          have hacc2_cases : ∀ x, x ∈ insertSorted it acc → x = it ∨ x ∈ acc :=
            fun x hx => (mem_insertSorted x it acc).mp hx
          have hred : calcDescGo p (fuel + 1) (it :: rest) acc =
              calcDescGo p fuel
                ((linksLookup p it).foldl
                  (fun s c => if c ∈ insertSorted it acc then s
                    else insertSorted c s) rest)
                (insertSorted it acc) := rfl
          have hs2 : ((linksLookup p it).foldl
              (fun s c => if c ∈ insertSorted it acc then s
                else insertSorted c s) rest).Sorted (· < ·) :=
            stageFold_sorted _ _ rest hrest_sorted
          have ha2 : (insertSorted it acc).Sorted (· < ·) :=
            sorted_insertSorted it acc hsa
          have hstageU2 : ∀ x ∈ (linksLookup p it).foldl
              (fun s c => if c ∈ insertSorted it acc then s
                else insertSorted c s) rest, x ∈ U := by
            intro x hx
            rcases (stageFold_mem _ _ _ x).mp hx with hxr | ⟨hxc, _⟩
            · exact hstageU x (List.mem_cons_of_mem it hxr)
            · exact hU it x hxc
          have hdisj2 : ∀ x ∈ (linksLookup p it).foldl
              (fun s c => if c ∈ insertSorted it acc then s
                else insertSorted c s) rest, x ∉ insertSorted it acc := by
            intro x hx
            rcases (stageFold_mem _ _ _ x).mp hx with hxr | ⟨_, hxn⟩
            · intro hcon
              rcases hacc2_cases x hcon with rfl | hxacc
              · exact absurd (hit_lt x hxr) (by omega)
              · exact hdisj x (List.mem_cons_of_mem it hxr) hxacc
            · exact hxn
          have hclosed2 : ∀ y ∈ insertSorted it acc, ∀ c, ChildLink p y c →
              c ∈ insertSorted it acc ∨
              c ∈ (linksLookup p it).foldl
                (fun s c => if c ∈ insertSorted it acc then s
                  else insertSorted c s) rest := by
            intro y hy c hc
            rcases hacc2_cases y hy with rfl | hyacc
            · by_cases hcm : c ∈ insertSorted y acc
              · exact Or.inl hcm
              · exact Or.inr ((stageFold_mem _ _ _ c).mpr (Or.inr ⟨hc, hcm⟩))
            · rcases hclosed y hyacc c hc with hca | hcs
              · exact Or.inl (hmono_acc c hca)
              · rcases List.mem_cons.mp hcs with rfl | hcrest
                · exact Or.inl hitacc2
                · exact Or.inr ((stageFold_mem _ _ _ c).mpr (Or.inl hcrest))
          have hfuel2 : ((U.dedup.filter
              (fun u => decide (¬ u ∈ insertSorted it acc))).length + 1 ≤ fuel) := by
            have hstrict := filter_length_strict
              (fun u => decide (¬ u ∈ insertSorted it acc))
              (fun u => decide (¬ u ∈ acc)) U.dedup (List.nodup_dedup U)
              it (List.mem_dedup.mpr (hstageU it (List.mem_cons_self it rest)))
              (by simp [hitacc]) (by simp [hitacc2])
              (by
                intro x _ hx
                simp only [decide_eq_true_eq] at hx ⊢
                exact fun hcon => hx (hmono_acc x hcon))
            omega
          obtain ⟨hcomp1, hcomp2⟩ := ih _ _ hs2 ha2 hstageU2 hdisj2 hclosed2 hfuel2
          rw [hred]
          refine ⟨?_, hcomp2⟩
          intro x hx
          rcases List.mem_cons.mp hx with rfl | hxr
          · exact calcDescGo_mono p fuel _ _ x hitacc2
          · exact hcomp1 x ((stageFold_mem _ _ _ x).mpr (Or.inl hxr))

/-- Full specification of CalculateDescendants over a closed accumulated
set: the result is sorted, closed under child links, and holds exactly the
old set plus everything reachable from the seed. -/
theorem CalculateDescendants_spec (p : Pool) (h : Nat) (acc : List Nat)
    (hacc : acc.Sorted (· < ·))
    (hclosed : ∀ y ∈ acc, ∀ c, ChildLink p y c → c ∈ acc) :
    (CalculateDescendants p h acc).Sorted (· < ·) ∧
    (∀ x, x ∈ CalculateDescendants p h acc ↔ x ∈ acc ∨ LinkDesc p h x) ∧
    (∀ y ∈ CalculateDescendants p h acc, ∀ c, ChildLink p y c →
      c ∈ CalculateDescendants p h acc) := by
  have hU : ∀ a c, ChildLink p a c → c ∈ h :: childUniverse p.links :=
    fun a c hc => List.mem_cons_of_mem h (childLink_mem_universe p a c hc)
  have hfuel : ((h :: childUniverse p.links).dedup.filter
      (fun u => decide (¬ u ∈ acc))).length + 1 ≤ totalChildren p + 2 := by
    have h1 : ((h :: childUniverse p.links).dedup.filter
        (fun u => decide (¬ u ∈ acc))).length ≤
        (h :: childUniverse p.links).dedup.length := List.length_filter_le _ _
    have h2 : (h :: childUniverse p.links).dedup.length ≤
        (h :: childUniverse p.links).length :=
      (List.dedup_sublist _).length_le
    have h3 : (h :: childUniverse p.links).length = totalChildren p + 1 := by
      rw [List.length_cons, childUniverse_length]
      rfl
    omega
  have hstage_sorted : (if h ∈ acc then ([] : List Nat) else [h]).Sorted (· < ·) := by
    by_cases hm : h ∈ acc <;> simp [hm]
  have hstageU : ∀ x ∈ (if h ∈ acc then ([] : List Nat) else [h]),
      x ∈ h :: childUniverse p.links := by
    by_cases hm : h ∈ acc <;> simp [hm]
  have hdisj : ∀ x ∈ (if h ∈ acc then ([] : List Nat) else [h]), x ∉ acc := by
    by_cases hm : h ∈ acc <;> simp [hm]
  have hclosed' : ∀ y ∈ acc, ∀ c, ChildLink p y c →
      c ∈ acc ∨ c ∈ (if h ∈ acc then ([] : List Nat) else [h]) :=
    fun y hy c hc => Or.inl (hclosed y hy c hc)
  obtain ⟨hcomp1, hcomp2⟩ := calcDescGo_complete p (h :: childUniverse p.links)
    hU (totalChildren p + 2) _ acc hstage_sorted hacc hstageU hdisj hclosed' hfuel
  have hsorted : (CalculateDescendants p h acc).Sorted (· < ·) :=
    calcDescGo_sorted p _ _ _ hacc
  have hseed : h ∈ CalculateDescendants p h acc := by
    by_cases hm : h ∈ acc
    · exact calcDescGo_mono p _ _ _ h hm
    · exact hcomp1 h (by simp [hm])
  refine ⟨hsorted, ?_, hcomp2⟩
  intro x
  constructor
  · intro hx
    rcases calcDescGo_sound p (LinkDesc p h)
        (fun a b ha hb => Relation.ReflTransGen.tail ha hb) _ _ acc
        (by by_cases hm : h ∈ acc <;> simp [hm]; exact Relation.ReflTransGen.refl)
        x hx with hxa | hxd
    · exact Or.inl hxa
    · exact Or.inr hxd
  · intro hx
    rcases hx with hxa | hxd
    · exact calcDescGo_mono p _ _ _ x hxa
    · induction hxd with
      | refl => exact hseed
      | tail hyz hstep ihy => exact hcomp2 _ ihy _ hstep

/-- The descendants fold over a list of seeds accumulates exactly the union
of the closures. -/
theorem descFold_spec (p : Pool) :
    ∀ (seeds acc : List Nat), acc.Sorted (· < ·) →
      (∀ y ∈ acc, ∀ c, ChildLink p y c → c ∈ acc) →
      ((seeds.foldl (fun acc h => CalculateDescendants p h acc) acc).Sorted (· < ·)) ∧
      (∀ x, x ∈ seeds.foldl (fun acc h => CalculateDescendants p h acc) acc ↔
        x ∈ acc ∨ ∃ s ∈ seeds, LinkDesc p s x) ∧
      (∀ y ∈ seeds.foldl (fun acc h => CalculateDescendants p h acc) acc,
        ∀ c, ChildLink p y c →
          c ∈ seeds.foldl (fun acc h => CalculateDescendants p h acc) acc) := by
  intro seeds
  induction seeds with
  | nil =>
      intro acc hsa hclosed
      refine ⟨hsa, ?_, hclosed⟩
      intro x
      simp
  | cons s rest ih =>
      intro acc hsa hclosed
      obtain ⟨hs1, hs2, hs3⟩ := CalculateDescendants_spec p s acc hsa hclosed
      obtain ⟨hi1, hi2, hi3⟩ := ih (CalculateDescendants p s acc) hs1 hs3
      refine ⟨hi1, ?_, hi3⟩
      intro x
      rw [List.foldl_cons, hi2, hs2]
      constructor
      · rintro ((hxa | hxd) | ⟨s', hs', hd'⟩)
        · exact Or.inl hxa
        · exact Or.inr ⟨s, List.mem_cons_self s rest, hxd⟩
        · exact Or.inr ⟨s', List.mem_cons_of_mem s hs', hd'⟩
      · rintro (hxa | ⟨s', hs', hd'⟩)
        · exact Or.inl (Or.inl hxa)
        · rcases List.mem_cons.mp hs' with rfl | hs'
          · exact Or.inl (Or.inr hd')
          · exact Or.inr ⟨s', hs', hd'⟩

/-! ## Removal of a staged set -/

/-- The hashes announced by removal notifications, in firing order. -/
def notifyHashes (evs : List MEvent) : List Nat :=
  evs.filterMap (fun ev =>
    match ev with
    | MEvent.notifyRemoved h _ => some h
    | _ => none)

/-- Removing a staged set filters the primary index down to the entries whose
hash is not staged. -/
theorem removeStaged_entries (reason : RemReason) :
    ∀ (stage : List Nat) (q : Pool × List MEvent),
      (stage.foldl
        (fun acc h =>
          let r := RemoveUnchecked acc.1 h reason
          (r.1, acc.2 ++ r.2)) q).1.entries =
      q.1.entries.filter (fun e => decide (¬ e.hash ∈ stage)) := by
  intro stage
  induction stage with
  | nil =>
      intro q
      simp
  | cons h rest ih =>
      intro q
      rw [List.foldl_cons, ih]
      show (q.1.entries.filter (fun e => decide (¬ e.hash = h))).filter
          (fun e => decide (¬ e.hash ∈ rest)) = _
      rw [List.filter_filter]
      refine List.filter_congr ?_
      intro e _
      by_cases h1 : e.hash = h <;> by_cases h2 : e.hash ∈ rest <;>
        simp [h1, h2, List.mem_cons]

/-- Removing a staged set filters the links map down to the slots whose key
is not staged. -/
theorem removeStaged_links (reason : RemReason) :
    ∀ (stage : List Nat) (q : Pool × List MEvent),
      (stage.foldl
        (fun acc h =>
          let r := RemoveUnchecked acc.1 h reason
          (r.1, acc.2 ++ r.2)) q).1.links =
      q.1.links.filter (fun kv => decide (¬ kv.1 ∈ stage)) := by
  intro stage
  induction stage with
  | nil =>
      intro q
      simp
  | cons h rest ih =>
      intro q
      rw [List.foldl_cons, ih]
      show (q.1.links.filter (fun kv => decide (¬ kv.1 = h))).filter
          (fun kv => decide (¬ kv.1 ∈ rest)) = _
      rw [List.filter_filter]
      refine List.filter_congr ?_
      intro kv _
      by_cases h1 : kv.1 = h <;> by_cases h2 : kv.1 ∈ rest <;>
        simp [h1, h2, List.mem_cons]

/-- Removing a staged set fires one removal notification per staged hash, in
stage order. -/
theorem removeStaged_notify (reason : RemReason) :
    ∀ (stage : List Nat) (q : Pool × List MEvent),
      notifyHashes (stage.foldl
        (fun acc h =>
          let r := RemoveUnchecked acc.1 h reason
          (r.1, acc.2 ++ r.2)) q).2 =
      notifyHashes q.2 ++ stage := by
  intro stage
  induction stage with
  | nil =>
      intro q
      simp
  | cons h rest ih =>
      intro q
      rw [List.foldl_cons, ih]
      show notifyHashes (q.2 ++
        [MEvent.notifyRemoved h reason, MEvent.erasePrimary h,
          MEvent.eraseLinks h]) ++ rest = _
      rw [notifyHashes, List.filterMap_append]
      show notifyHashes q.2 ++ [h] ++ rest = notifyHashes q.2 ++ h :: rest
      rw [List.append_assoc]
      rfl

/-! ## C7: exactness of Expire -/

/-- Well-formedness of a mempool state: entry hashes are unique and every
hash in a child list belongs to an entry.  These hold in every state built by
AddUnchecked calls with fresh hashes. -/
def PoolWF (p : Pool) : Prop :=
  (p.entries.map (fun e => e.hash)).Nodup ∧
  (∀ kv ∈ p.links, ∀ c ∈ kv.2, ∃ e ∈ p.entries, e.hash = c)

/-- An entry is expired-or-descendant for time t: some entry older than t
reaches it through the links map. -/
def ExpiredDesc (p : Pool) (t : Int) (e : MEntry) : Prop :=
  ∃ s ∈ p.entries, s.time < t ∧ LinkDesc p s.hash e.hash

/-- Membership across the hash collection fold of Expire. -/
theorem hashFold_mem :
    ∀ (l : List MEntry) (s : List Nat) (x : Nat),
      x ∈ l.foldl (fun s e => insertSorted e.hash s) s ↔
        x ∈ s ∨ ∃ e ∈ l, e.hash = x := by
  intro l
  induction l with
  | nil => intro s x; simp
  | cons e rest ih =>
      intro s x
      rw [List.foldl_cons, ih, mem_insertSorted]
      constructor
      · rintro ((rfl | hx) | ⟨e', he', hx⟩)
        · exact Or.inr ⟨e, List.mem_cons_self e rest, rfl⟩
        · exact Or.inl hx
        · exact Or.inr ⟨e', List.mem_cons_of_mem e he', hx⟩
      · rintro (hx | ⟨e', he', hx⟩)
        · exact Or.inl (Or.inr hx)
        · rcases List.mem_cons.mp he' with rfl | he'
          · exact Or.inl (Or.inl hx.symm)
          · exact Or.inr ⟨e', he', hx⟩

/-- The hash collection fold keeps the set sorted. -/
theorem hashFold_sorted :
    ∀ (l : List MEntry) (s : List Nat), s.Sorted (· < ·) →
      (l.foldl (fun s e => insertSorted e.hash s) s).Sorted (· < ·) := by
  intro l
  induction l with
  | nil => intro s hs; exact hs
  | cons e rest ih => intro s hs; exact ih _ (sorted_insertSorted e.hash s hs)

/-- In a well-formed pool, anything link-reachable from an entry hash is an
entry hash. -/
theorem linkDesc_target_mem (p : Pool) (hWF : PoolWF p) (s x : Nat)
    (hs : ∃ e ∈ p.entries, e.hash = s) (hd : LinkDesc p s x) :
    ∃ e ∈ p.entries, e.hash = x := by
  induction hd with
  | refl => exact hs
  | tail hyz hstep ihy =>
      rw [ChildLink, linksLookup] at hstep
      rename_i y z
      cases hf : p.links.find? (fun kv => kv.1 == y) with
      | none => rw [hf] at hstep; exact absurd hstep (by simp)
      | some kv =>
          rw [hf] at hstep
          exact hWF.2 kv (List.mem_of_find?_eq_some hf) z hstep

/-- C7.  Expire removes exactly the union of the entries older than t and
their link-map descendants, and returns the size of that union: membership in
the post state is membership in the old state minus the expired-descendant
set, and the returned count is the length of the removed sublist. -/
theorem expire_exact (p : Pool) (t : Int) (hWF : PoolWF p) :
    (∀ e, e ∈ (Expire p t).1.entries ↔ e ∈ p.entries ∧ ¬ ExpiredDesc p t e) ∧
    (∃ dl : List MEntry, dl.Sublist p.entries ∧
      (∀ e, e ∈ dl ↔ e ∈ p.entries ∧ ExpiredDesc p t e) ∧
      (Expire p t).2.2 = dl.length) := by
  have htr_mem : ∀ x, x ∈ (p.entries.filter (fun e => e.time < t)).foldl
      (fun s e => insertSorted e.hash s) [] ↔
      ∃ e ∈ p.entries, e.time < t ∧ e.hash = x := by
    intro x
    rw [hashFold_mem]
    constructor
    · rintro (hx | ⟨e, he, hx⟩)
      · exact absurd hx (by simp)
      · have hm := List.mem_filter.mp he
        exact ⟨e, hm.1, by simpa using hm.2, hx⟩
    · rintro ⟨e, he, ht, hx⟩
      exact Or.inr ⟨e, List.mem_filter.mpr ⟨he, by simpa using ht⟩, hx⟩
  have htr_sorted : ((p.entries.filter (fun e => e.time < t)).foldl
      (fun s e => insertSorted e.hash s) []).Sorted (· < ·) :=
    hashFold_sorted _ [] (by simp)
  obtain ⟨hst_sorted, hst_mem, hst_closed⟩ :=
    descFold_spec p ((p.entries.filter (fun e => e.time < t)).foldl
      (fun s e => insertSorted e.hash s) []) []
      (by simp) (fun y hy => absurd hy (by simp))
  set toRemove := (p.entries.filter (fun e => e.time < t)).foldl
    (fun s e => insertSorted e.hash s) [] with htrdef
  set stage := toRemove.foldl (fun acc h => CalculateDescendants p h acc) []
    with hstdef
  have hstage_char : ∀ x, x ∈ stage ↔
      ∃ s ∈ p.entries, s.time < t ∧ LinkDesc p s.hash x := by
    intro x
    rw [hst_mem x]
    constructor
    · rintro (hx | ⟨s, hs, hd⟩)
      · exact absurd hx (by simp)
      · obtain ⟨e, he, ht, hx⟩ := (htr_mem s).mp hs
        exact ⟨e, he, ht, hx ▸ hd⟩
    · rintro ⟨s, hs, ht, hd⟩
      exact Or.inr ⟨s.hash, (htr_mem s.hash).mpr ⟨s, hs, ht, rfl⟩, hd⟩
  have hent : (Expire p t).1.entries =
      p.entries.filter (fun e => decide (¬ e.hash ∈ stage)) := by
    show (RemoveStaged p stage RemReason.expiry).1.entries = _
    rw [RemoveStaged]
    exact removeStaged_entries RemReason.expiry stage (p, [])
  have hcount : (Expire p t).2.2 = stage.length := rfl
  constructor
  · intro e
    rw [hent, List.mem_filter]
    constructor
    · rintro ⟨he, hdec⟩
      refine ⟨he, ?_⟩
      intro ⟨s, hs, ht, hd⟩
      rw [decide_eq_true_eq] at hdec
      exact hdec ((hstage_char e.hash).mpr ⟨s, hs, ht, hd⟩)
    · rintro ⟨he, hnd⟩
      refine ⟨he, ?_⟩
      rw [decide_eq_true_eq]
      intro hcon
      obtain ⟨s, hs, ht, hd⟩ := (hstage_char e.hash).mp hcon
      exact hnd ⟨s, hs, ht, hd⟩
  · refine ⟨p.entries.filter (fun e => decide (e.hash ∈ stage)),
      List.filter_sublist _, ?_, ?_⟩
    · intro e
      rw [List.mem_filter, decide_eq_true_eq]
      constructor
      · rintro ⟨he, hm⟩
        exact ⟨he, (hstage_char e.hash).mp hm⟩
      · rintro ⟨he, hd⟩
        exact ⟨he, (hstage_char e.hash).mpr hd⟩
    · rw [hcount]
      have hstage_hashes : ∀ x ∈ stage, ∃ e ∈ p.entries, e.hash = x := by
        intro x hx
        obtain ⟨s, hs, ht, hd⟩ := (hstage_char x).mp hx
        exact linkDesc_target_mem p hWF s.hash x ⟨s, hs, rfl⟩ hd
      have hdl_map_nodup : ((p.entries.filter
          (fun e => decide (e.hash ∈ stage))).map (fun e => e.hash)).Nodup :=
        ((List.filter_sublist _).map _).nodup hWF.1
      have hmm : ∀ x, x ∈ (p.entries.filter
          (fun e => decide (e.hash ∈ stage))).map (fun e => e.hash) ↔
          x ∈ stage := by
        intro x
        rw [List.mem_map]
        constructor
        · rintro ⟨e, he, rfl⟩
          exact of_decide_eq_true (List.mem_filter.mp he).2
        · intro hx
          obtain ⟨e, he, rfl⟩ := hstage_hashes x hx
          exact ⟨e, List.mem_filter.mpr ⟨he, decide_eq_true hx⟩, rfl⟩
      have hsp1 := (sorted_nodup stage hst_sorted).subperm
        (fun x hx => (hmm x).mpr hx)
      have hsp2 := hdl_map_nodup.subperm (fun x hx => (hmm x).mp hx)
      have hlen1 := hsp1.length_le
      have hlen2 := hsp2.length_le
      rw [List.length_map] at hlen1 hlen2
      omega

/-- C7 witness: a three-entry chain; expiring at time 6 removes the two old
entries and the newer grandchild they reach, returning 3. -/
theorem expire_exact_witness :
    PoolWF (buildPool [⟨1, 10, 99, 5⟩, ⟨2, 11, 10, 6⟩, ⟨3, 12, 11, 7⟩]) ∧
    ((∀ e, e ∈ (Expire (buildPool [⟨1, 10, 99, 5⟩, ⟨2, 11, 10, 6⟩,
        ⟨3, 12, 11, 7⟩]) 6).1.entries ↔
      e ∈ (buildPool [⟨1, 10, 99, 5⟩, ⟨2, 11, 10, 6⟩, ⟨3, 12, 11, 7⟩]).entries ∧
        ¬ ExpiredDesc (buildPool [⟨1, 10, 99, 5⟩, ⟨2, 11, 10, 6⟩,
          ⟨3, 12, 11, 7⟩]) 6 e) ∧
    (∃ dl : List MEntry,
      dl.Sublist (buildPool [⟨1, 10, 99, 5⟩, ⟨2, 11, 10, 6⟩,
        ⟨3, 12, 11, 7⟩]).entries ∧
      (∀ e, e ∈ dl ↔ e ∈ (buildPool [⟨1, 10, 99, 5⟩, ⟨2, 11, 10, 6⟩,
        ⟨3, 12, 11, 7⟩]).entries ∧
        ExpiredDesc (buildPool [⟨1, 10, 99, 5⟩, ⟨2, 11, 10, 6⟩,
          ⟨3, 12, 11, 7⟩]) 6 e) ∧
      (Expire (buildPool [⟨1, 10, 99, 5⟩, ⟨2, 11, 10, 6⟩,
        ⟨3, 12, 11, 7⟩]) 6).2.2 = dl.length)) :=
  ⟨⟨by decide, by decide⟩,
    expire_exact (buildPool [⟨1, 10, 99, 5⟩, ⟨2, 11, 10, 6⟩, ⟨3, 12, 11, 7⟩]) 6
      ⟨by decide, by decide⟩⟩

/-! ## Links map bookkeeping for reachable pools -/

/-- Lookup in a raw links association list. -/
def llook (ls : List (Nat × List Nat)) (h : Nat) : List Nat :=
  ((ls.find? (fun kv => kv.1 == h)).map (fun kv => kv.2)).getD []

/-- The pool lookup is the raw lookup on its links. -/
theorem linksLookup_def (p : Pool) (h : Nat) : linksLookup p h = llook p.links h := rfl

/-- Lookup steps over a cons cell. -/
theorem llook_cons (k : Nat) (v : List Nat) (rest : List (Nat × List Nat)) (h : Nat) :
    llook ((k, v) :: rest) h = if k = h then v else llook rest h := by
  rw [llook, List.find?_cons]
  by_cases hk : k = h
  · subst hk
    simp
  · have hbeq : ((k, v).1 == h) = false := beq_eq_false_iff_ne.mpr hk
    rw [hbeq, if_neg hk]
    rfl

/-- A key is found exactly when it appears in the key list. -/
theorem find?_key_isSome (ls : List (Nat × List Nat)) (h : Nat) :
    (ls.find? (fun kv => kv.1 == h)).isSome = true ↔
      h ∈ ls.map (fun kv => kv.1) := by
  constructor
  · intro hf
    cases hfind : ls.find? (fun kv => kv.1 == h) with
    | none => rw [hfind] at hf; exact absurd hf (by simp)
    | some kv =>
        have hmem := List.mem_of_find?_eq_some hfind
        have hpred := List.find?_some hfind
        rw [beq_iff_eq] at hpred
        exact hpred ▸ List.mem_map.mpr ⟨kv, hmem, rfl⟩
  · intro hmem
    obtain ⟨kv, hkv, hfst⟩ := List.mem_map.mp hmem
    cases hfind : ls.find? (fun kv => kv.1 == h) with
    | none =>
        have := List.find?_eq_none.mp hfind kv hkv
        rw [hfst] at this
        exact absurd (beq_self_eq_true h) this
    | some _ => rfl

/-- Lookup prefers the left part when the key is present there. -/
theorem llook_append_left (ls ls2 : List (Nat × List Nat)) (h : Nat)
    (hfound : (ls.find? (fun kv => kv.1 == h)).isSome = true) :
    llook (ls ++ ls2) h = llook ls h := by
  rw [llook, llook, List.find?_append]
  cases hf : ls.find? (fun kv => kv.1 == h) with
  | none => rw [hf] at hfound; exact absurd hfound (by simp)
  | some kv => simp

/-- Lookup falls through to the right part when the key is absent left. -/
theorem llook_append_right (ls ls2 : List (Nat × List Nat)) (h : Nat)
    (hnone : ls.find? (fun kv => kv.1 == h) = none) :
    llook (ls ++ ls2) h = llook ls2 h := by
  rw [llook, llook, List.find?_append, hnone]
  rfl

/-- Registering a child under a present key keeps the key list. -/
theorem keys_linksAddChild_present (ls : List (Nat × List Nat)) (pa c : Nat)
    (hf : (ls.find? (fun kv => kv.1 == pa)).isSome = true) :
    (linksAddChild ls pa c).map (fun kv => kv.1) = ls.map (fun kv => kv.1) := by
  rw [linksAddChild, if_pos hf, List.map_map]
  refine List.map_congr_left ?_
  intro kv _
  show (if kv.1 == pa then (kv.1, insertSorted c kv.2) else kv).1 = kv.1
  split <;> rfl

/-- Registering a child under a present key updates exactly that slot. -/
theorem llook_mapupdate_same (pa c : Nat) :
    ∀ (ls : List (Nat × List Nat)), pa ∈ ls.map (fun kv => kv.1) →
      llook (ls.map (fun kv =>
        if kv.1 == pa then (kv.1, insertSorted c kv.2) else kv)) pa =
        insertSorted c (llook ls pa) := by
  intro ls
  induction ls with
  | nil => intro hmem; exact absurd hmem (by simp)
  | cons kv rest ih =>
      intro hmem
      obtain ⟨k, v⟩ := kv
      by_cases hk : k = pa
      · subst hk
        have hbeq : ((k, v).1 == k) = true := beq_self_eq_true k
        rw [List.map_cons]
        rw [show (if ((k, v).1 == k) = true then ((k, v).1, insertSorted c (k, v).2)
          else (k, v)) = (k, insertSorted c v) by rw [if_pos hbeq]]
        rw [llook_cons, if_pos rfl, llook_cons, if_pos rfl]
      · have hbeq : ((k, v).1 == pa) = false := beq_eq_false_iff_ne.mpr hk
        rw [List.map_cons]
        rw [show (if ((k, v).1 == pa) = true then ((k, v).1, insertSorted c (k, v).2)
          else (k, v)) = (k, v) by rw [hbeq]; simp]
        rw [llook_cons, if_neg hk, llook_cons, if_neg hk]
        refine ih ?_
        rcases List.mem_map.mp hmem with ⟨kv', hkv', hfst⟩
        rcases List.mem_cons.mp hkv' with rfl | hkv'
        · exact absurd hfst hk
        · exact List.mem_map.mpr ⟨kv', hkv', hfst⟩

/-- Registering a child leaves every other slot unchanged. -/
theorem llook_mapupdate_other (pa c h : Nat) (hne : h ≠ pa) :
    ∀ (ls : List (Nat × List Nat)),
      llook (ls.map (fun kv =>
        if kv.1 == pa then (kv.1, insertSorted c kv.2) else kv)) h =
        llook ls h := by
  intro ls
  induction ls with
  | nil => rfl
  | cons kv rest ih =>
      obtain ⟨k, v⟩ := kv
      by_cases hk : k = pa
      · subst hk
        have hbeq : ((k, v).1 == k) = true := beq_self_eq_true k
        rw [List.map_cons]
        rw [show (if ((k, v).1 == k) = true then ((k, v).1, insertSorted c (k, v).2)
          else (k, v)) = (k, insertSorted c v) by rw [if_pos hbeq]]
        rw [llook_cons, llook_cons, if_neg (fun hcon => hne hcon.symm),
          if_neg (fun hcon => hne hcon.symm)]
        exact ih
      · have hbeq : ((k, v).1 == pa) = false := beq_eq_false_iff_ne.mpr hk
        rw [List.map_cons]
        rw [show (if ((k, v).1 == pa) = true then ((k, v).1, insertSorted c (k, v).2)
          else (k, v)) = (k, v) by rw [hbeq]; simp]
        rw [llook_cons, llook_cons]
        by_cases hkh : k = h
        · rw [if_pos hkh, if_pos hkh]
        · rw [if_neg hkh, if_neg hkh]
          exact ih

/-- A reachable-pool invariant: entry hashes and addresses are unique, the
links keys mirror the entry hashes, and the links map records exactly the
parent-address relation between entries. -/
def GoodPool (p : Pool) : Prop :=
  (p.entries.map (fun e => e.hash)).Nodup ∧
  (p.entries.map (fun e => e.address)).Nodup ∧
  (p.links.map (fun kv => kv.1)) = (p.entries.map (fun e => e.hash)) ∧
  ∀ ep ∈ p.entries, ∀ c,
    (c ∈ linksLookup p ep.hash ↔
      ∃ ec ∈ p.entries, ec.hash = c ∧ ec.parentAddress = ep.address)

/-- The empty pool is good. -/
theorem goodPool_empty : GoodPool emptyPool := by
  refine ⟨by simp [emptyPool], by simp [emptyPool], by simp [emptyPool], ?_⟩
  intro ep hep
  exact absurd hep (by simp [emptyPool])

/-- Reduction of AddUnchecked when the hash and links key are fresh. -/
theorem addUnchecked_reduce (p : Pool) (e : MEntry)
    (h1 : findByHash p.entries e.hash = none)
    (h2 : p.links.find? (fun kv => kv.1 == e.hash) = none) :
    (AddUnchecked p e).1 =
      (match (p.entries ++ [e]).find? (fun pe => pe.address == e.parentAddress) with
      | some pe => ⟨p.entries ++ [e],
          linksAddChild (p.links ++ [(e.hash, [])]) pe.hash e.hash⟩
      | none => (⟨p.entries ++ [e], p.links ++ [(e.hash, [])]⟩ : Pool)) := by
  rw [AddUnchecked, h1, h2]
  simp only [Option.isSome_none, Bool.false_eq_true, if_false]
  cases (p.entries ++ [e]).find? (fun pe => pe.address == e.parentAddress) <;> rfl

/-- AddUnchecked preserves the invariant when the new entry is fresh (new
hash, new address), is nobody's missing parent, and is not self-parented. -/
theorem addUnchecked_good (p : Pool) (e : MEntry)
    (hG : GoodPool p)
    (hnh : ¬ e.hash ∈ p.entries.map (fun x => x.hash))
    (hna : ¬ e.address ∈ p.entries.map (fun x => x.address))
    (hnc : ∀ ec ∈ p.entries, ec.parentAddress ≠ e.address)
    (hns : e.parentAddress ≠ e.address) :
    GoodPool (AddUnchecked p e).1 ∧
    (AddUnchecked p e).1.entries = p.entries ++ [e] := by
  obtain ⟨hGh, hGa, hGk, hGl⟩ := hG
  have hfind_hash : findByHash p.entries e.hash = none := by
    rw [findByHash, List.find?_eq_none]
    intro x hx hcon
    rw [beq_iff_eq] at hcon
    exact hnh (List.mem_map.mpr ⟨x, hx, hcon⟩)
  have hfind_key : p.links.find? (fun kv => kv.1 == e.hash) = none := by
    rw [List.find?_eq_none]
    intro kv hkv hcon
    rw [beq_iff_eq] at hcon
    have : kv.1 ∈ p.links.map (fun kv => kv.1) := List.mem_map.mpr ⟨kv, hkv, rfl⟩
    rw [hGk, hcon] at this
    exact hnh this
  have hinj_hash : ∀ a ∈ p.entries, ∀ b ∈ p.entries, a.hash = b.hash → a = b :=
    fun a ha b hb hab => List.inj_on_of_nodup_map hGh ha hb hab
  have hinj_addr : ∀ a ∈ p.entries, ∀ b ∈ p.entries, a.address = b.address → a = b :=
    fun a ha b hb hab => List.inj_on_of_nodup_map hGa ha hb hab
  have hNodupH : ((p.entries ++ [e]).map (fun x => x.hash)).Nodup := by
    rw [List.map_append, List.nodup_append]
    exact ⟨hGh, by simp, by
      intro x hx hcon
      rcases List.mem_map.mp hx with ⟨a, ha, rfl⟩
      simp at hcon
      rw [hcon] at hx
      exact hnh hx⟩
  have hNodupA : ((p.entries ++ [e]).map (fun x => x.address)).Nodup := by
    rw [List.map_append, List.nodup_append]
    exact ⟨hGa, by simp, by
      intro x hx hcon
      rcases List.mem_map.mp hx with ⟨a, ha, rfl⟩
      simp at hcon
      rw [hcon] at hx
      exact hna hx⟩
  have hreduce := addUnchecked_reduce p e hfind_hash hfind_key
  cases hfp : (p.entries ++ [e]).find? (fun pe => pe.address == e.parentAddress) with
  | none =>
      have hres : (AddUnchecked p e).1 =
          ⟨p.entries ++ [e], p.links ++ [(e.hash, ([] : List Nat))]⟩ := by
        rw [hreduce, hfp]
      rw [hres]
      refine ⟨⟨hNodupH, hNodupA, ?_, ?_⟩, rfl⟩
      · show (p.links ++ [(e.hash, ([] : List Nat))]).map (fun kv => kv.1) = _
        rw [List.map_append, hGk, List.map_append]
        rfl
      · intro ep hep c
        rcases List.mem_append.mp hep with hep' | hep'
        · have hlk : linksLookup ⟨p.entries ++ [e], p.links ++ [(e.hash, ([] : List Nat))]⟩
              ep.hash = llook p.links ep.hash := by
            rw [linksLookup_def]
            exact llook_append_left _ _ _
              ((find?_key_isSome _ _).mpr
                (by rw [hGk]; exact List.mem_map.mpr ⟨ep, hep', rfl⟩))
          rw [hlk]
          simp only [linksLookup_def] at hGl
          rw [hGl ep hep' c]
          constructor
          · rintro ⟨ec, hec, hh, hpa⟩
            exact ⟨ec, List.mem_append_left _ hec, hh, hpa⟩
          · rintro ⟨ec, hec, hh, hpa⟩
            rcases List.mem_append.mp hec with hec' | hec'
            · exact ⟨ec, hec', hh, hpa⟩
            · rw [List.mem_singleton] at hec'
              exfalso
              rw [hec'] at hpa
              have hne2 : (p.entries ++ [e]).find? (fun pe =>
                  pe.address == e.parentAddress) ≠ none := by
                intro hcon
                exact (List.find?_eq_none.mp hcon ep hep)
                  (by rw [beq_iff_eq]; exact hpa.symm)
              exact hne2 hfp
        · rw [List.mem_singleton] at hep'
          subst hep'
          have hlk : linksLookup ⟨p.entries ++ [ep], p.links ++ [(ep.hash, ([] : List Nat))]⟩
              ep.hash = [] := by
            rw [linksLookup_def]
            show llook (p.links ++ [(ep.hash, ([] : List Nat))]) ep.hash = []
            rw [llook_append_right _ _ _ hfind_key, llook_cons, if_pos rfl]
          rw [hlk]
          constructor
          · intro hc
            exact absurd hc (by simp)
          · rintro ⟨ec, hec, hh, hpa⟩
            rcases List.mem_append.mp hec with hec' | hec'
            · exact absurd hpa (hnc ec hec')
            · rw [List.mem_singleton] at hec'
              subst hec'
              exact absurd hpa hns
  | some pe =>
      have hpe_pred := List.find?_some hfp
      rw [beq_iff_eq] at hpe_pred
      have hpe_mem := List.mem_of_find?_eq_some hfp
      have hpe_old : pe ∈ p.entries := by
        rcases List.mem_append.mp hpe_mem with h' | h'
        · exact h'
        · rw [List.mem_singleton] at h'
          subst h'
          exact absurd hpe_pred.symm hns
      have hpe_hash_mem : pe.hash ∈ p.links.map (fun kv => kv.1) := by
        rw [hGk]
        exact List.mem_map.mpr ⟨pe, hpe_old, rfl⟩
      have hpe_found1 : ((p.links ++ [(e.hash, ([] : List Nat))]).find?
          (fun kv => kv.1 == pe.hash)).isSome = true := by
        rw [find?_key_isSome, List.map_append]
        exact List.mem_append_left _ hpe_hash_mem
      have hres : (AddUnchecked p e).1 =
          ⟨p.entries ++ [e],
            linksAddChild (p.links ++ [(e.hash, ([] : List Nat))]) pe.hash e.hash⟩ := by
        rw [hreduce, hfp]
      have hlinks' : linksAddChild (p.links ++ [(e.hash, ([] : List Nat))]) pe.hash e.hash =
          (p.links ++ [(e.hash, ([] : List Nat))]).map (fun kv =>
            if kv.1 == pe.hash then (kv.1, insertSorted e.hash kv.2) else kv) := by
        rw [linksAddChild, if_pos hpe_found1]
      rw [hres]
      refine ⟨⟨hNodupH, hNodupA, ?_, ?_⟩, rfl⟩
      · show (linksAddChild (p.links ++ [(e.hash, ([] : List Nat))]) pe.hash e.hash).map
            (fun kv => kv.1) = _
        rw [keys_linksAddChild_present _ _ _ hpe_found1, List.map_append, hGk,
          List.map_append]
        rfl
      · intro ep hep c
        have hlk_base : ∀ h, llook (p.links ++ [(e.hash, ([] : List Nat))]) h =
            if h = e.hash then [] else llook p.links h := by
          intro h
          by_cases hh : h = e.hash
          · subst hh
            rw [llook_append_right _ _ _ hfind_key, llook_cons, if_pos rfl,
              if_pos rfl]
          · rw [if_neg hh]
            cases hfind2 : p.links.find? (fun kv => kv.1 == h) with
            | none =>
                have h1 : llook (p.links ++ [(e.hash, ([] : List Nat))]) h =
                    llook [(e.hash, ([] : List Nat))] h :=
                  llook_append_right _ _ _ hfind2
                have h2 : llook [(e.hash, ([] : List Nat))] h = [] := by
                  rw [llook_cons, if_neg (fun hcon => hh hcon.symm)]
                  rfl
                have h3 : llook p.links h = [] := by
                  rw [llook, hfind2]
                  rfl
                rw [h1, h2, h3]
            | some kv =>
                exact llook_append_left _ _ _ (by rw [hfind2]; rfl)
        rcases List.mem_append.mp hep with hep' | hep'
        · by_cases hpehash : ep.hash = pe.hash
          · have hep_eq : ep = pe := hinj_hash ep hep' pe hpe_old hpehash
            subst hep_eq
            have hlk : linksLookup ⟨p.entries ++ [e],
                linksAddChild (p.links ++ [(e.hash, ([] : List Nat))]) ep.hash e.hash⟩
                ep.hash = insertSorted e.hash (llook p.links ep.hash) := by
              rw [linksLookup_def]
              show llook (linksAddChild (p.links ++ [(e.hash, ([] : List Nat))])
                ep.hash e.hash) ep.hash = _
              rw [hlinks']
              rw [llook_mapupdate_same _ _ _ (by
                rw [List.map_append]
                exact List.mem_append_left _ hpe_hash_mem)]
              congr 1
              rw [hlk_base]
              rw [if_neg (fun hcon => hnh (by
                rw [← hcon]
                exact List.mem_map.mpr ⟨ep, hep', rfl⟩))]
            rw [hlk, mem_insertSorted]
            simp only [linksLookup_def] at hGl
            rw [hGl ep hep' c]
            constructor
            · rintro (rfl | ⟨ec, hec, hh, hpa⟩)
              · exact ⟨e, List.mem_append_right _ (List.mem_singleton.mpr rfl),
                  rfl, hpe_pred.symm⟩
              · exact ⟨ec, List.mem_append_left _ hec, hh, hpa⟩
            · rintro ⟨ec, hec, hh, hpa⟩
              rcases List.mem_append.mp hec with hec' | hec'
              · exact Or.inr ⟨ec, hec', hh, hpa⟩
              · rw [List.mem_singleton] at hec'
                subst hec'
                exact Or.inl hh.symm
          · have hlk : linksLookup ⟨p.entries ++ [e],
                linksAddChild (p.links ++ [(e.hash, ([] : List Nat))]) pe.hash e.hash⟩
                ep.hash = llook p.links ep.hash := by
              rw [linksLookup_def]
              show llook (linksAddChild (p.links ++ [(e.hash, ([] : List Nat))])
                pe.hash e.hash) ep.hash = _
              rw [hlinks', llook_mapupdate_other _ _ _ hpehash]
              rw [hlk_base]
              rw [if_neg (fun hcon => hnh (by
                rw [← hcon]
                exact List.mem_map.mpr ⟨ep, hep', rfl⟩))]
            rw [hlk]
            simp only [linksLookup_def] at hGl
            rw [hGl ep hep' c]
            constructor
            · rintro ⟨ec, hec, hh, hpa⟩
              exact ⟨ec, List.mem_append_left _ hec, hh, hpa⟩
            · rintro ⟨ec, hec, hh, hpa⟩
              rcases List.mem_append.mp hec with hec' | hec'
              · exact ⟨ec, hec', hh, hpa⟩
              · rw [List.mem_singleton] at hec'
                subst hec'
                exfalso
                have hpe_ep : pe.address = ep.address := by
                  rw [hpe_pred, hpa]
                exact hpehash (congrArg (fun x => x.hash)
                  (hinj_addr ep hep' pe hpe_old hpe_ep.symm))
        · rw [List.mem_singleton] at hep'
          subst hep'
          have hephash_ne : ep.hash ≠ pe.hash := by
            intro hcon
            exact hnh (by rw [hcon]; exact List.mem_map.mpr ⟨pe, hpe_old, rfl⟩)
          have hlk : linksLookup ⟨p.entries ++ [ep],
              linksAddChild (p.links ++ [(ep.hash, ([] : List Nat))]) pe.hash ep.hash⟩
              ep.hash = [] := by
            rw [linksLookup_def]
            show llook (linksAddChild (p.links ++ [(ep.hash, ([] : List Nat))])
              pe.hash ep.hash) ep.hash = _
            rw [hlinks', llook_mapupdate_other _ _ _ hephash_ne, hlk_base,
              if_pos rfl]
          rw [hlk]
          constructor
          · intro hc
            exact absurd hc (by simp)
          · rintro ⟨ec, hec, hh, hpa⟩
            rcases List.mem_append.mp hec with hec' | hec'
            · exact absurd hpa (hnc ec hec')
            · rw [List.mem_singleton] at hec'
              subst hec'
              exact absurd hpa hns

/-- The parent-first insertion discipline: when each entry is added, its
parent address either already belongs to an earlier entry or belongs to no
entry of the whole sequence. -/
def Discipline (es : List MEntry) : Prop :=
  ∀ i, i < es.length →
    (es.getD i default).parentAddress ∈ (es.take i).map (fun x => x.address) ∨
    ¬ (es.getD i default).parentAddress ∈ es.map (fun x => x.address)

instance (es : List MEntry) : Decidable (Discipline es) := by
  unfold Discipline
  infer_instance

/-- Pools built by a fresh, parent-first AddUnchecked sequence are good, and
hold exactly the added entries in order. -/
theorem buildPool_good (es : List MEntry)
    (h1 : (es.map (fun x => x.hash)).Nodup)
    (h2 : (es.map (fun x => x.address)).Nodup)
    (h3 : Discipline es) :
    GoodPool (buildPool es) ∧ (buildPool es).entries = es := by
  induction es using List.reverseRecOn with
  | nil => exact ⟨goodPool_empty, rfl⟩
  | append_singleton init e ih =>
      have hmapsH : (init ++ [e]).map (fun x => x.hash) =
          init.map (fun x => x.hash) ++ [e.hash] := by
        rw [List.map_append]; rfl
      have hmapsA : (init ++ [e]).map (fun x => x.address) =
          init.map (fun x => x.address) ++ [e.address] := by
        rw [List.map_append]; rfl
      rw [hmapsH] at h1
      rw [hmapsA] at h2
      rw [List.nodup_append] at h1 h2
      have hnh : ¬ e.hash ∈ init.map (fun x => x.hash) :=
        fun hmem => h1.2.2 hmem (List.mem_singleton.mpr rfl)
      have hna : ¬ e.address ∈ init.map (fun x => x.address) :=
        fun hmem => h2.2.2 hmem (List.mem_singleton.mpr rfl)
      have hlen : (init ++ [e]).length = init.length + 1 := by
        rw [List.length_append]; rfl
      have hgetDlast : (init ++ [e]).getD init.length default = e := by
        rw [List.getD_eq_getElem?_getD, List.getElem?_concat_length]
        rfl
      have haddr_mem_all : e.address ∈ (init ++ [e]).map (fun x => x.address) := by
        rw [hmapsA]
        exact List.mem_append_right _ (List.mem_singleton.mpr rfl)
      have h3init : Discipline init := by
        intro i hi
        have hi' : i < (init ++ [e]).length := by omega
        have hgd : (init ++ [e]).getD i default = init.getD i default :=
          List.getD_append _ _ _ _ hi
        have htk : (init ++ [e]).take i = init.take i :=
          List.take_append_of_le_length (by omega)
        rcases h3 i hi' with hleft | hright
        · left
          rw [hgd, htk] at hleft
          exact hleft
        · right
          rw [hgd] at hright
          intro hcon
          refine hright ?_
          rw [hmapsA]
          exact List.mem_append_left _ hcon
      have hnc : ∀ ec ∈ init, ec.parentAddress ≠ e.address := by
        intro ec hec hcon
        obtain ⟨j, hj, hgetD⟩ := mem_getD hec
        have hj' : j < (init ++ [e]).length := by omega
        have hgd : (init ++ [e]).getD j default = ec := by
          rw [List.getD_append _ _ _ _ hj, hgetD]
        rcases h3 j hj' with hleft | hright
        · rw [hgd, hcon] at hleft
          rw [List.take_append_of_le_length (by omega)] at hleft
          have : e.address ∈ init.map (fun x => x.address) := by
            rcases List.mem_map.mp hleft with ⟨a, ha, haddr⟩
            exact List.mem_map.mpr ⟨a, (List.take_sublist _ _).mem ha, haddr⟩
          exact hna this
        · rw [hgd, hcon] at hright
          exact hright haddr_mem_all
      have hns : e.parentAddress ≠ e.address := by
        have hl : init.length < (init ++ [e]).length := by omega
        rcases h3 init.length hl with hleft | hright
        · rw [hgetDlast] at hleft
          rw [List.take_append_of_le_length (le_refl _), List.take_length] at hleft
          intro hcon
          rw [hcon] at hleft
          exact hna hleft
        · rw [hgetDlast] at hright
          intro hcon
          rw [hcon] at hright
          exact hright haddr_mem_all
      obtain ⟨hGood, hEnt⟩ := ih h1.1 h2.1 h3init
      have hstep := addUnchecked_good (buildPool init) e hGood
        (by rw [hEnt]; exact hnh) (by rw [hEnt]; exact hna)
        (by rw [hEnt]; exact hnc) hns
      have hbuild : buildPool (init ++ [e]) = (AddUnchecked (buildPool init) e).1 := by
        rw [buildPool, List.foldl_append]
        rfl
      rw [hbuild]
      exact ⟨hstep.1, by rw [hstep.2, hEnt]⟩

/-- One parent step in the mempool: the second entry is in the pool and its
address is the first entry's parent address. -/
def ParentStep (p : Pool) (a b : MEntry) : Prop :=
  a ∈ p.entries ∧ b ∈ p.entries ∧ b.address = a.parentAddress

/-- The ancestor chain relation: b is reached from a by following parent
addresses through entries of the pool. -/
def AncChain (p : Pool) (a b : MEntry) : Prop :=
  Relation.ReflTransGen (ParentStep p) a b

/-- With unique hashes, the primary index find returns the entry itself. -/
theorem findByHash_unique :
    ∀ (es : List MEntry), (es.map (fun x => x.hash)).Nodup →
      ∀ e ∈ es, findByHash es e.hash = some e := by
  intro es
  induction es with
  | nil => intro _ e he; exact absurd he (by simp)
  | cons a rest ih =>
      intro hnd e he
      rcases List.mem_cons.mp he with rfl | he'
      · simp [findByHash, List.find?_cons]
      · have hne : (a.hash == e.hash) = false := by
          rw [beq_eq_false_iff_ne]
          intro hcon
          have hn1 : a.hash ∉ rest.map (fun x => x.hash) := by
            have hn2 := List.nodup_cons.mp (by
              rw [List.map_cons] at hnd
              exact hnd)
            exact hn2.1
          exact hn1 (hcon ▸ List.mem_map.mpr ⟨e, he', rfl⟩)
        have hrec := ih (by
          rw [List.map_cons] at hnd
          exact (List.nodup_cons.mp hnd).2) e he'
        simp only [findByHash, List.find?_cons, hne]
        exact hrec

/-- In a good pool, the ancestor chain relation toward R coincides with link
reachability downward from the hash of R, and everything link-reachable from
R is the hash of an entry whose chain contains R. -/
theorem ancChain_iff_linkDesc (p : Pool) (hG : GoodPool p) (R : MEntry)
    (hR : R ∈ p.entries) :
    (∀ h, LinkDesc p R.hash h →
      ∃ ey ∈ p.entries, ey.hash = h ∧ AncChain p ey R) ∧
    (∀ e ∈ p.entries, (AncChain p e R ↔ LinkDesc p R.hash e.hash)) := by
  obtain ⟨hGh, _hGa, _hGk, hGl⟩ := hG
  have hsecond : ∀ h, LinkDesc p R.hash h →
      ∃ ey ∈ p.entries, ey.hash = h ∧ AncChain p ey R := by
    intro h hd
    induction hd with
    | refl => exact ⟨R, hR, rfl, Relation.ReflTransGen.refl⟩
    | tail hyz hstep ihy =>
        obtain ⟨ey, hey, rfl, hanc⟩ := ihy
        rename_i z
        have hz : z ∈ linksLookup p ey.hash := hstep
        obtain ⟨ec, hec, hech, hecp⟩ := (hGl ey hey z).mp hz
        exact ⟨ec, hec, hech,
          Relation.ReflTransGen.head ⟨hec, hey, hecp.symm⟩ hanc⟩
  refine ⟨hsecond, ?_⟩
  intro e he
  constructor
  · intro hanc
    induction hanc using Relation.ReflTransGen.head_induction_on with
    | refl => exact Relation.ReflTransGen.refl
    | head hstep hrest ihc =>
        rename_i a c
        obtain ⟨ha, hc, hcp⟩ := hstep
        have hchild : a.hash ∈ linksLookup p c.hash :=
          (hGl c hc a.hash).mpr ⟨a, ha, rfl, hcp.symm⟩
        exact Relation.ReflTransGen.tail (ihc hc) hchild
  · intro hd
    obtain ⟨ey, hey, heyh, hanc⟩ := hsecond e.hash hd
    have : ey = e := List.inj_on_of_nodup_map hGh hey he heyh
    exact this ▸ hanc

/-- C6 counterexample.  The claim quantifies over any insertion order.  Add
the child (hash 2, parent address 10) before its parent (hash 1, address
10): AddUnchecked only searches for the parent of the entry being added, so
no link is recorded.  RemoveRecursive on the parent then leaves the child in
the pool although its ancestor chain contained the parent. -/
theorem removeRecursive_closure_cex :
    (⟨1, 10, 99, 5⟩ : MEntry) ∈
      (buildPool [⟨2, 11, 10, 6⟩, ⟨1, 10, 99, 5⟩]).entries ∧
    (⟨2, 11, 10, 6⟩ : MEntry) ∈
      (RemoveRecursive (buildPool [⟨2, 11, 10, 6⟩, ⟨1, 10, 99, 5⟩]) 1
        RemReason.expiry).1.entries ∧
    AncChain (buildPool [⟨2, 11, 10, 6⟩, ⟨1, 10, 99, 5⟩])
      ⟨2, 11, 10, 6⟩ ⟨1, 10, 99, 5⟩ := by
  refine ⟨by decide, by decide, ?_⟩
  exact Relation.ReflTransGen.single ⟨by decide, by decide, rfl⟩

/-- C6 amended.  For pools built by AddUnchecked sequences with fresh hashes
and addresses in which every entry is added after its mempool parent (the
parent-first discipline), RemoveRecursive on an entry R removes exactly the
entries whose ancestor chain in the pool contained R, and fires one
NotifyEntryRemoved per removed entry. -/
theorem removeRecursive_closure (es : List MEntry) (R : MEntry)
    (reason : RemReason)
    (h1 : (es.map (fun x => x.hash)).Nodup)
    (h2 : (es.map (fun x => x.address)).Nodup)
    (h3 : Discipline es)
    (hR : R ∈ es) :
    (∀ e ∈ (RemoveRecursive (buildPool es) R.hash reason).1.entries,
      ¬ AncChain (buildPool es) e R) ∧
    (∀ e, e ∈ (RemoveRecursive (buildPool es) R.hash reason).1.entries ↔
      (e ∈ (buildPool es).entries ∧ ¬ AncChain (buildPool es) e R)) ∧
    (notifyHashes (RemoveRecursive (buildPool es) R.hash reason).2).Nodup ∧
    (∀ h, h ∈ notifyHashes (RemoveRecursive (buildPool es) R.hash reason).2 ↔
      ∃ e ∈ (buildPool es).entries, e.hash = h ∧ AncChain (buildPool es) e R) := by
  obtain ⟨hGood, hEnt⟩ := buildPool_good es h1 h2 h3
  have hR' : R ∈ (buildPool es).entries := by rw [hEnt]; exact hR
  have hfind : findByHash (buildPool es).entries R.hash = some R :=
    findByHash_unique _ hGood.1 R hR'
  have hred : RemoveRecursive (buildPool es) R.hash reason =
      RemoveStaged (buildPool es)
        (CalculateDescendants (buildPool es) R.hash []) reason := by
    rw [RemoveRecursive, hfind]
  obtain ⟨hsorted, hchar, _hclosed⟩ :=
    CalculateDescendants_spec (buildPool es) R.hash [] (by simp)
      (fun y hy => absurd hy (by simp))
  have hchar' : ∀ x, x ∈ CalculateDescendants (buildPool es) R.hash [] ↔
      LinkDesc (buildPool es) R.hash x := by
    intro x
    rw [hchar x]
    simp
  obtain ⟨hsecond, hiff⟩ := ancChain_iff_linkDesc (buildPool es) hGood R hR'
  have hent2 : (RemoveRecursive (buildPool es) R.hash reason).1.entries =
      (buildPool es).entries.filter (fun e =>
        decide (¬ e.hash ∈ CalculateDescendants (buildPool es) R.hash [])) := by
    rw [hred, RemoveStaged]
    exact removeStaged_entries reason _ _
  have hnot2 : notifyHashes (RemoveRecursive (buildPool es) R.hash reason).2 =
      CalculateDescendants (buildPool es) R.hash [] := by
    rw [hred, RemoveStaged]
    rw [removeStaged_notify reason _ _]
    rfl
  have hmem_iff : ∀ e, e ∈ (RemoveRecursive (buildPool es) R.hash reason).1.entries ↔
      (e ∈ (buildPool es).entries ∧ ¬ AncChain (buildPool es) e R) := by
    intro e
    rw [hent2, List.mem_filter, decide_eq_true_eq]
    constructor
    · rintro ⟨he, hnm⟩
      refine ⟨he, fun hanc => hnm ?_⟩
      exact (hchar' e.hash).mpr ((hiff e he).mp hanc)
    · rintro ⟨he, hnanc⟩
      refine ⟨he, fun hm => hnanc ?_⟩
      exact (hiff e he).mpr ((hchar' e.hash).mp hm)
  refine ⟨fun e he => ((hmem_iff e).mp he).2, hmem_iff, ?_, ?_⟩
  · rw [hnot2]
    exact sorted_nodup _ hsorted
  · intro h
    rw [hnot2, hchar' h]
    constructor
    · intro hd
      exact hsecond h hd
    · rintro ⟨e, he, rfl, hanc⟩
      exact (hiff e he).mp hanc

/-- C6 witness: a three-entry parent-first chain; removing the root removes
all three with three notifications. -/
theorem removeRecursive_closure_witness :
    (((([⟨1, 10, 99, 5⟩, ⟨2, 11, 10, 6⟩, ⟨3, 12, 11, 7⟩] : List MEntry).map
        (fun x => x.hash)).Nodup ∧
      (([⟨1, 10, 99, 5⟩, ⟨2, 11, 10, 6⟩, ⟨3, 12, 11, 7⟩] : List MEntry).map
        (fun x => x.address)).Nodup ∧
      Discipline [⟨1, 10, 99, 5⟩, ⟨2, 11, 10, 6⟩, ⟨3, 12, 11, 7⟩] ∧
      (⟨1, 10, 99, 5⟩ : MEntry) ∈
        [⟨1, 10, 99, 5⟩, ⟨2, 11, 10, 6⟩, ⟨3, 12, 11, 7⟩]) : Prop) ∧
    ((∀ e ∈ (RemoveRecursive
        (buildPool [⟨1, 10, 99, 5⟩, ⟨2, 11, 10, 6⟩, ⟨3, 12, 11, 7⟩])
        (⟨1, 10, 99, 5⟩ : MEntry).hash RemReason.expiry).1.entries,
      ¬ AncChain (buildPool [⟨1, 10, 99, 5⟩, ⟨2, 11, 10, 6⟩, ⟨3, 12, 11, 7⟩])
        e ⟨1, 10, 99, 5⟩) ∧
    (∀ e, e ∈ (RemoveRecursive
        (buildPool [⟨1, 10, 99, 5⟩, ⟨2, 11, 10, 6⟩, ⟨3, 12, 11, 7⟩])
        (⟨1, 10, 99, 5⟩ : MEntry).hash RemReason.expiry).1.entries ↔
      (e ∈ (buildPool [⟨1, 10, 99, 5⟩, ⟨2, 11, 10, 6⟩,
          ⟨3, 12, 11, 7⟩]).entries ∧
        ¬ AncChain (buildPool [⟨1, 10, 99, 5⟩, ⟨2, 11, 10, 6⟩,
          ⟨3, 12, 11, 7⟩]) e ⟨1, 10, 99, 5⟩)) ∧
    (notifyHashes (RemoveRecursive
        (buildPool [⟨1, 10, 99, 5⟩, ⟨2, 11, 10, 6⟩, ⟨3, 12, 11, 7⟩])
        (⟨1, 10, 99, 5⟩ : MEntry).hash RemReason.expiry).2).Nodup ∧
    (∀ h, h ∈ notifyHashes (RemoveRecursive
        (buildPool [⟨1, 10, 99, 5⟩, ⟨2, 11, 10, 6⟩, ⟨3, 12, 11, 7⟩])
        (⟨1, 10, 99, 5⟩ : MEntry).hash RemReason.expiry).2 ↔
      ∃ e ∈ (buildPool [⟨1, 10, 99, 5⟩, ⟨2, 11, 10, 6⟩,
          ⟨3, 12, 11, 7⟩]).entries,
        e.hash = h ∧ AncChain (buildPool [⟨1, 10, 99, 5⟩, ⟨2, 11, 10, 6⟩,
          ⟨3, 12, 11, 7⟩]) e ⟨1, 10, 99, 5⟩)) :=
  ⟨⟨by decide, by decide, by decide, by decide⟩,
    removeRecursive_closure [⟨1, 10, 99, 5⟩, ⟨2, 11, 10, 6⟩, ⟨3, 12, 11, 7⟩]
      ⟨1, 10, 99, 5⟩ RemReason.expiry (by decide) (by decide) (by decide)
      (by decide)⟩

/-! ## Concrete stores used by witnesses and counterexamples -/

/-- The empty store. -/
def dbEmpty : RefDB :=
  { referrals := fun _ => none
    referralsByHash := fun _ => none
    parents := fun _ => none
    children := fun _ => none
    anv := fun _ => none }

/-- A store that resolves code hash 100 (an anchor for batch roots). -/
def dbAnchor : RefDB :=
  { dbEmpty with referralsByHash := fun h => if h = 100 then some default else none }

/-- A store holding the parent chain 1 to 2 to 3 with ANV records at each. -/
def dbChain3 : RefDB :=
  { dbEmpty with
    parents := fun a => if a = 1 then some 2 else if a = 2 then some 3 else none
    anv := fun a =>
      if a = 1 then some (1, 1, 10)
      else if a = 2 then some (1, 2, 20)
      else if a = 3 then some (1, 3, 30)
      else none }

/-! ## C10: Flush frame -/

/-- C10.  Flush invokes the store InsertReferral once for each referral in
the referral-by-address map, in map order, then leaves that map empty, while
the wallet-to-referrer map and its lookups are unchanged. -/
theorem flush_frame (c : Cache) (db : RefDB) :
    (Flush c db).2.2 = c.referral_cache.map (fun pr => pr.2) ∧
    (Flush c db).1.referral_cache = [] ∧
    (Flush c db).1.wallet_to_referrer = c.wallet_to_referrer ∧
    (∀ a, walletLookup (Flush c db).1 a = walletLookup c a) ∧
    (∀ a, cacheFetch (Flush c db).1 a = none) ∧
    (Flush c db).2.1 =
      (c.referral_cache.map (fun pr => pr.2)).foldl
        (fun d r => (InsertReferral d r false).2) db :=
  ⟨rfl, rfl, rfl, fun _ => rfl, fun _ => rfl, rfl⟩

/-! ## C9: AddUnchecked notification order -/

/-- C9 counterexample.  The claim states that NotifyEntryAdded fires only
after the entry has been inserted into the primary index, with the lock held
throughout.  In the source the notification is the first statement of
AddUnchecked, before LOCK(cs) and before the insert: on a concrete call the
event trace begins with the notification, then the lock acquisition, then
the insert. -/
theorem addUnchecked_notify_order_cex :
    (AddUnchecked emptyPool ⟨1, 10, 99, 5⟩).2 =
      [MEvent.notifyAdded 1, MEvent.lockAcquire, MEvent.insertPrimary 1,
       MEvent.createLinks 1, MEvent.lockRelease] := by
  decide

/-- C9 amended.  In every AddUnchecked call the NotifyEntryAdded callback
fires first, before the lock is acquired and before the entry is inserted
into the primary index and its links slot created: the trace always begins
notify, lock, insert, create-links. -/
theorem addUnchecked_notify_first (p : Pool) (e : MEntry) :
    ∃ rest, (AddUnchecked p e).2 =
      MEvent.notifyAdded e.hash :: MEvent.lockAcquire ::
      MEvent.insertPrimary e.hash :: MEvent.createLinks e.hash :: rest := by
  unfold AddUnchecked
  cases hm : (if (findByHash p.entries e.hash).isSome then p.entries
      else p.entries ++ [e]).find? (fun pe => pe.address == e.parentAddress) with
  | none => exact ⟨[MEvent.lockRelease], by simp [hm]⟩
  | some pe =>
      exact ⟨[MEvent.linkChild pe.hash e.hash, MEvent.lockRelease], by simp [hm]⟩

/-! ## C5: where InsertReferral puts the ANV record -/

/-- C5 counterexample.  The claim states that after a successful
InsertReferral the ANV record is retrievable for the confirmed address even
when the public key id differs from the address.  The source writes the
record under the public key id only: inserting a referral with address 1 and
public key id 2 succeeds, yet GetANV of the address returns nothing (the
record sits under key 2). -/
theorem insertReferral_anv_key_cex :
    (InsertReferral dbEmpty ⟨1, 1, 2, 5, 9, 3⟩ true).1 = true ∧
    GetANV (InsertReferral dbEmpty ⟨1, 1, 2, 5, 9, 3⟩ true).2 1 = none ∧
    GetANV (InsertReferral dbEmpty ⟨1, 1, 2, 5, 9, 3⟩ true).2 2 = some (1, 2, 0) := by
  decide

/-- The ANV column after any InsertReferral is the input ANV column with the
zero record written under the public key id (every branch of the function
leaves the later writes off that column). -/
theorem insertReferral_anv_column (db : RefDB) (r : Referral) (b : Bool) :
    (InsertReferral db r b).2.anv =
      fupd db.anv r.pubKeyId (r.addressType, r.pubKeyId, 0) := by
  unfold InsertReferral
  cases hm : (fupd db.referrals r.address r) r.parentAddress with
  | none => by_cases hb : b = true <;> simp [hm, hb]
  | some pe => simp [hm]

/-- C5 amended.  After a successful InsertReferral the ANV record exists
under the key the source writes, the public key id: GetANV of the public key
id returns the record (addressType and pubKeyId copied from the referral,
amount zero); GetANV of the confirmed address returns that record when the
public key id coincides with the address, and when the two differ the read
at the address is untouched by the insert, returning whatever record the
store held there before (none over a store holding no prior record at the
address, as the counterexample exhibits). -/
theorem insertReferral_anv_existence (db : RefDB) (r : Referral) (b : Bool)
    (h : (InsertReferral db r b).1 = true) :
    GetANV (InsertReferral db r b).2 r.pubKeyId =
      some (r.addressType, r.pubKeyId, 0) ∧
    (r.pubKeyId = r.address →
      GetANV (InsertReferral db r b).2 r.address =
        some (r.addressType, r.pubKeyId, 0)) ∧
    (r.pubKeyId ≠ r.address →
      GetANV (InsertReferral db r b).2 r.address = GetANV db r.address) := by
  refine ⟨?_, ?_, ?_⟩
  · show (InsertReferral db r b).2.anv r.pubKeyId = _
    rw [insertReferral_anv_column]
    simp [fupd]
  · intro heq
    show (InsertReferral db r b).2.anv r.address = _
    rw [insertReferral_anv_column, ← heq]
    simp [fupd]
  · intro hne
    show (InsertReferral db r b).2.anv r.address = db.anv r.address
    rw [insertReferral_anv_column]
    have hne' : r.address ≠ r.pubKeyId := fun hc => hne hc.symm
    simp [fupd, hne']

/-- C5 witness: a concrete successful insert whose public key id differs
from its address, where the read under the public key id succeeds and the
read at the address is the store's prior (absent) record. -/
theorem insertReferral_anv_existence_witness :
    (InsertReferral dbEmpty ⟨1, 1, 2, 5, 9, 3⟩ true).1 = true ∧
    (GetANV (InsertReferral dbEmpty ⟨1, 1, 2, 5, 9, 3⟩ true).2 2 =
        some (1, 2, 0) ∧
      ((2 : Nat) = 1 →
        GetANV (InsertReferral dbEmpty ⟨1, 1, 2, 5, 9, 3⟩ true).2 1 =
          some (1, 2, 0)) ∧
      ((2 : Nat) ≠ 1 →
        GetANV (InsertReferral dbEmpty ⟨1, 1, 2, 5, 9, 3⟩ true).2 1 =
          GetANV dbEmpty 1)) :=
  ⟨by decide, insertReferral_anv_existence dbEmpty ⟨1, 1, 2, 5, 9, 3⟩ true (by decide)⟩

/-! ## C8: InsertReferral with an unresolvable parent -/

/-- C8 counterexample.  The claim quantifies over every referral whose parent
address does not resolve in the store.  For a self-parented referral
(parentAddress equal to its own address) over the empty store the premise
holds, yet the insert succeeds: the source resolves the parent after writing
the referral record itself, so the lookup finds the just-written record. -/
theorem insertReferral_missing_parent_cex :
    GetReferral dbEmpty (⟨1, 1, 2, 5, 9, 1⟩ : Referral).parentAddress = none ∧
    (InsertReferral dbEmpty ⟨1, 1, 2, 5, 9, 1⟩ false).1 = true := by
  decide

/-- C8 amended.  For a referral that is not self-parented and whose parent
address does not resolve, InsertReferral with allow_no_parent false fails,
and the two writes already performed remain: the referral record under
column r keyed by the address and the zero ANV record under column a keyed
by the public key id; nothing else changes. -/
theorem insertReferral_missing_parent (db : RefDB) (r : Referral)
    (hp : GetReferral db r.parentAddress = none)
    (hna : r.parentAddress ≠ r.address) :
    (InsertReferral db r false).1 = false ∧
    GetReferral (InsertReferral db r false).2 r.address = some r ∧
    GetANV (InsertReferral db r false).2 r.pubKeyId =
      some (r.addressType, r.pubKeyId, 0) ∧
    (∀ a, a ≠ r.address →
      GetReferral (InsertReferral db r false).2 a = GetReferral db a) ∧
    (∀ a, a ≠ r.pubKeyId →
      GetANV (InsertReferral db r false).2 a = GetANV db a) ∧
    (InsertReferral db r false).2.parents = db.parents ∧
    (InsertReferral db r false).2.children = db.children := by
  have hm : (fupd db.referrals r.address r) r.parentAddress = none := by
    rw [fupd, if_neg hna]
    exact hp
  refine ⟨?_, ?_, ?_, ?_, ?_, ?_, ?_⟩ <;>
    simp only [InsertReferral, GetReferral, GetANV, hm] <;>
    simp [fupd] <;> intro a ha <;> simp [fupd, ha]

/-- C8 witness: concrete failing insert over the empty store with a distinct
parent address; the two writes are visible afterwards. -/
theorem insertReferral_missing_parent_witness :
    (GetReferral dbEmpty (⟨1, 1, 2, 5, 9, 3⟩ : Referral).parentAddress = none ∧
      (⟨1, 1, 2, 5, 9, 3⟩ : Referral).parentAddress ≠ 1) ∧
    ((InsertReferral dbEmpty ⟨1, 1, 2, 5, 9, 3⟩ false).1 = false ∧
      GetReferral (InsertReferral dbEmpty ⟨1, 1, 2, 5, 9, 3⟩ false).2 1 =
        some ⟨1, 1, 2, 5, 9, 3⟩ ∧
      GetANV (InsertReferral dbEmpty ⟨1, 1, 2, 5, 9, 3⟩ false).2 2 =
        some (1, 2, 0) ∧
      (∀ a, a ≠ (⟨1, 1, 2, 5, 9, 3⟩ : Referral).address →
        GetReferral (InsertReferral dbEmpty ⟨1, 1, 2, 5, 9, 3⟩ false).2 a =
          GetReferral dbEmpty a) ∧
      (∀ a, a ≠ (⟨1, 1, 2, 5, 9, 3⟩ : Referral).pubKeyId →
        GetANV (InsertReferral dbEmpty ⟨1, 1, 2, 5, 9, 3⟩ false).2 a =
          GetANV dbEmpty a) ∧
      (InsertReferral dbEmpty ⟨1, 1, 2, 5, 9, 3⟩ false).2.parents =
        dbEmpty.parents ∧
      (InsertReferral dbEmpty ⟨1, 1, 2, 5, 9, 3⟩ false).2.children =
        dbEmpty.children) :=
  ⟨⟨by decide, by decide⟩,
    insertReferral_missing_parent dbEmpty ⟨1, 1, 2, 5, 9, 3⟩ (by decide) (by decide)⟩

/-! ## C4: ANV propagation along a root path -/

/-- Root paths only read the parent column, so they are unaffected by ANV
writes. -/
theorem isRootPath_parents_congr (db db' : RefDB) (hp : db'.parents = db.parents) :
    ∀ (chain : List Nat) (s : Nat), isRootPath db' s chain = isRootPath db s chain := by
  intro chain
  induction chain with
  | nil => intro s; rfl
  | cons a t ih =>
      intro s
      cases t with
      | nil => simp [isRootPath, hp]
      | cons b rest => simp [isRootPath, hp, ih b]

/-- The walk stops as soon as no address remains, whatever fuel is left. -/
theorem updateANVGo_none (change : Int) (fuel : Nat) (db : RefDB) :
    updateANVGo change fuel none db = (true, db) := by
  cases fuel <;> rfl

/-- One successful iteration of the walk: read the record, write it back with
the change added, follow the parent pointer. -/
theorem updateANVGo_some (change : Int) (f a : Nat) (db : RefDB)
    (ty pk : Nat) (amt : Int) (h : db.anv a = some (ty, pk, amt)) :
    updateANVGo change (f + 1) (some a) db =
      updateANVGo change f (db.parents a)
        { db with anv := fupd db.anv a (ty, pk, amt + change) } := by
  simp [updateANVGo, h]

/-- Full specification of the UpdateANV walk along a root path: with enough
fuel the walk succeeds, adds the change to the record of every address on the
path, and leaves the parent column and every other ANV record unchanged. -/
theorem updateANVGo_spec (change : Int) :
    ∀ (chain : List Nat) (db : RefDB) (start fuel : Nat),
      isRootPath db start chain = true →
      chain.Nodup →
      (∀ a ∈ chain, (db.anv a).isSome) →
      chain.length ≤ fuel →
      (updateANVGo change fuel (some start) db).1 = true ∧
      (updateANVGo change fuel (some start) db).2.parents = db.parents ∧
      (∀ a ∈ chain, ∃ ty pk amt, db.anv a = some (ty, pk, amt) ∧
        (updateANVGo change fuel (some start) db).2.anv a =
          some (ty, pk, amt + change)) ∧
      (∀ a, a ∉ chain →
        (updateANVGo change fuel (some start) db).2.anv a = db.anv a) := by
  intro chain
  induction chain with
  | nil =>
      intro db start fuel hpath
      exact absurd hpath (by simp [isRootPath])
  | cons a t ih =>
      intro db start fuel hpath hnd hrec hlen
      obtain ⟨v, hanv⟩ : ∃ v, db.anv a = some v :=
        Option.isSome_iff_exists.mp (hrec a (List.mem_cons_self a t))
      obtain ⟨ty, pk, amt⟩ := v
      obtain ⟨f, rfl⟩ : ∃ f, fuel = f + 1 := by
        cases fuel with
        | zero => exact absurd hlen (by simp)
        | succ f => exact ⟨f, rfl⟩
      have hred := updateANVGo_some change f a db ty pk amt hanv
      cases t with
      | nil =>
          simp only [isRootPath, Bool.and_eq_true, decide_eq_true_eq,
            beq_iff_eq] at hpath
          obtain ⟨rfl, hpar⟩ := hpath
          rw [hred, hpar, updateANVGo_none]
          refine ⟨rfl, rfl, ?_, ?_⟩
          · intro x hx
            rw [List.mem_singleton] at hx
            subst hx
            exact ⟨ty, pk, amt, hanv, by simp [fupd]⟩
          · intro x hx
            rw [List.mem_singleton] at hx
            show fupd db.anv a (ty, pk, amt + change) x = db.anv x
            simp [fupd, hx]
      | cons b rest =>
          simp only [isRootPath, Bool.and_eq_true, decide_eq_true_eq,
            beq_iff_eq] at hpath
          obtain ⟨⟨rfl, hpar⟩, hpath'⟩ := hpath
          rw [hred, hpar]
          have hnotmem : a ∉ b :: rest := (List.nodup_cons.mp hnd).1
          have hih := ih { db with anv := fupd db.anv a (ty, pk, amt + change) } b f
            (by
              rw [isRootPath_parents_congr db
                { db with anv := fupd db.anv a (ty, pk, amt + change) } rfl]
              exact hpath')
            (List.nodup_cons.mp hnd).2
            (by
              intro x hx
              show (fupd db.anv a (ty, pk, amt + change) x).isSome
              rw [fupd]
              by_cases hxa : x = a
              · simp [hxa]
              · simp only [if_neg hxa]
                exact hrec x (List.mem_cons_of_mem a hx))
            (by
              have hlen' : (b :: rest).length + 1 ≤ f + 1 := hlen
              omega)
          obtain ⟨h1, h2, h3, h4⟩ := hih
          refine ⟨h1, by rw [h2], ?_, ?_⟩
          · intro x hx
            rcases List.mem_cons.mp hx with hxa | hxt
            · subst hxa
              refine ⟨ty, pk, amt, hanv, ?_⟩
              rw [h4 x hnotmem]
              simp [fupd]
            · obtain ⟨ty', pk', amt', hx1, hx2⟩ := h3 x hxt
              refine ⟨ty', pk', amt', ?_, hx2⟩
              rw [← hx1]
              have hxa : x ≠ a := fun hcon => hnotmem (hcon ▸ hxt)
              show db.anv x = fupd db.anv a (ty, pk, amt + change) x
              simp [fupd, hxa]
          · intro x hx
            have hxa : x ≠ a := fun hcon => hx (hcon ▸ List.mem_cons_self a _)
            have hxt : x ∉ b :: rest := fun hcon => hx (List.mem_cons_of_mem a hcon)
            rw [h4 x hxt]
            show fupd db.anv a (ty, pk, amt + change) x = db.anv x
            simp [fupd, hxa]

/-- Pointwise shift of a mapped sum. -/
theorem map_sum_shift (c : Int) :
    ∀ (l : List Nat) (f g : Nat → Int), (∀ a ∈ l, f a = g a + c) →
      (l.map f).sum = (l.map g).sum + c * l.length := by
  intro l
  induction l with
  | nil => intro f g _; simp
  | cons a t ih =>
      intro f g hfg
      have ht := ih f g (fun x hx => hfg x (List.mem_cons_of_mem a hx))
      simp only [List.map_cons, List.sum_cons, ht, hfg a (List.mem_cons_self a t),
        List.length_cons]
      push_cast
      ring

/-- C4.  Along any acyclic root path whose addresses all carry ANV records,
UpdateANV succeeds, adds the signed change identically to the record of every
address on the path (so the sum over the path grows by the change times the
path length), and leaves every other ANV record and the parent column
unchanged. -/
theorem updateANV_rootPath (db : RefDB) (t start : Nat) (change : Int)
    (chain : List Nat)
    (hpath : isRootPath db start chain = true)
    (hnd : chain.Nodup)
    (hrec : ∀ a ∈ chain, (db.anv a).isSome)
    (hlen : chain.length ≤ MAX_LEVELS) :
    (UpdateANV db t start change).1 = true ∧
    (∀ a ∈ chain, ∃ ty pk amt, db.anv a = some (ty, pk, amt) ∧
      (UpdateANV db t start change).2.anv a = some (ty, pk, amt + change)) ∧
    (∀ a, a ∉ chain → (UpdateANV db t start change).2.anv a = db.anv a) ∧
    (chain.map (anvAmount (UpdateANV db t start change).2)).sum =
      (chain.map (anvAmount db)).sum + change * chain.length := by
  obtain ⟨h1, _h2, h3, h4⟩ :=
    updateANVGo_spec change chain db start MAX_LEVELS hpath hnd hrec hlen
  refine ⟨h1, h3, h4, ?_⟩
  refine map_sum_shift change chain _ _ ?_
  intro a ha
  obtain ⟨ty, pk, amt, hdb, hdb'⟩ := h3 a ha
  show anvAmount (updateANVGo change MAX_LEVELS (some start) db).2 a =
    anvAmount db a + change
  rw [anvAmount, anvAmount, hdb, hdb']
  rfl

/-! ## The dependency graph and the breadth first walk -/

/-- After phase one every lookup in the graph defaults to the empty list. -/
theorem graphOfRoots_getD (roots : List Referral) (h : Nat) :
    ((graphOfRoots roots) h).getD [] = [] := by
  suffices hgen : ∀ (g : Nat → Option (List Referral)),
      (∀ x, (g x).getD [] = []) →
      ∀ x, ((roots.foldl (fun g r => fupd g r.codeHash []) g) x).getD [] = [] by
    exact hgen (fun _ => none) (fun _ => rfl) h
  induction roots with
  | nil => intro g hg x; exact hg x
  | cons r rest ih =>
      intro g hg x
      refine ih (fupd g r.codeHash []) ?_ x
      intro y
      rw [fupd]
      by_cases hy : y = r.codeHash <;> simp [hy, hg y]

/-- Phase two appends, under each key, exactly the interior referrals whose
previous referral is that key, in their scan order. -/
theorem graphAdd_getD (interior : List Referral) :
    ∀ (g : Nat → Option (List Referral)) (h : Nat),
      ((graphAdd g interior) h).getD [] =
        (g h).getD [] ++ interior.filter (fun r => r.previousReferral == h) := by
  induction interior with
  | nil => intro g h; simp [graphAdd]
  | cons r rest ih =>
      intro g h
      show ((graphAdd (fupd g r.previousReferral
          ((g r.previousReferral).getD [] ++ [r])) rest) h).getD [] = _
      rw [ih]
      by_cases hh : h = r.previousReferral
      · subst hh
        rw [List.filter_cons]
        simp [fupd]
      · rw [List.filter_cons]
        have hbeq : (r.previousReferral == h) = false :=
          beq_eq_false_iff_ne.mpr (fun hcon => hh hcon.symm)
        rw [hbeq]
        simp only [Bool.false_eq_true, if_false]
        congr 1
        rw [fupd, if_neg (fun hcon => hh hcon)]

/-- Lookups in the full graph: the interior referrals keyed by their previous
referral hash. -/
theorem buildGraph_getD (roots interior : List Referral) (h : Nat) :
    ((buildGraph roots interior) h).getD [] =
      interior.filter (fun r => r.previousReferral == h) := by
  rw [buildGraph, graphAdd_getD, graphOfRoots_getD]
  rfl

/-- Soundness statement about an output list: every element either resolves
in the store or repeats the code hash of an earlier output element. -/
def SoundOut (db : RefDB) (out : List Referral) : Prop :=
  ∀ i, i < out.length → storeOk db (out.getD i default) = true ∨
    ∃ j, j < i ∧ (out.getD j default).codeHash = (out.getD i default).previousReferral

instance (db : RefDB) (out : List Referral) : Decidable (SoundOut db out) := by
  unfold SoundOut
  infer_instance

/-- The breadth first walk preserves output soundness whenever every queued
element is a resolvable root or a child of an already written element, and
every graph list holds only referrals keyed by their previous hash. -/
theorem bfsGo_sound (db : RefDB) (g : Nat → Option (List Referral))
    (hg : ∀ h r, r ∈ (g h).getD [] → r.previousReferral = h) :
    ∀ (slots : Nat) (q out : List Referral),
      SoundOut db out →
      (∀ c ∈ q, storeOk db c = true ∨ ∃ p ∈ out, p.codeHash = c.previousReferral) →
      SoundOut db (bfsGo g slots q out).1 := by
  intro slots
  induction slots with
  | zero => intro q out hout _; exact hout
  | succ slots ih =>
      intro q out hout hq
      cases q with
      | nil => exact hout
      | cons r rest =>
          show SoundOut db (bfsGo g slots (rest ++ (g r.codeHash).getD [])
            (out ++ [r])).1
          refine ih _ _ ?_ ?_
          · intro i hi
            rw [List.length_append, List.length_singleton] at hi
            by_cases hlt : i < out.length
            · rw [List.getD_append _ _ _ _ hlt]
              rcases hout i hlt with hcase | ⟨j, hj1, hj2⟩
              · exact Or.inl hcase
              · have hgj : (out ++ [r]).getD j default = out.getD j default :=
                  List.getD_append _ _ _ _ (by omega)
                exact Or.inr ⟨j, hj1, by rw [hgj]; exact hj2⟩
            · have hieq : i = out.length := by omega
              subst hieq
              have hget : (out ++ [r]).getD out.length default = r := by
                rw [List.getD_eq_getElem?_getD, List.getElem?_concat_length]
                rfl
              rw [hget]
              rcases hq r (List.mem_cons_self r rest) with hcase | ⟨p, hp1, hp2⟩
              · exact Or.inl hcase
              · obtain ⟨j, hj1, hj2⟩ := mem_getD hp1
                exact Or.inr ⟨j, hj1, by
                  rw [List.getD_append _ _ _ _ hj1, hj2, hp2]⟩
          · intro c hc
            rcases List.mem_append.mp hc with hcr | hcg
            · rcases hq c (List.mem_cons_of_mem r hcr) with hcase | ⟨p, hp1, hp2⟩
              · exact Or.inl hcase
              · exact Or.inr ⟨p, List.mem_append_left _ hp1, hp2⟩
            · refine Or.inr ⟨r, List.mem_append_right _ (List.mem_singleton.mpr rfl), ?_⟩
              rw [hg r.codeHash c hcg]

/-- Unpacking a successful OrderReferrals call: the batch was nonempty, the
split was positive, the walk filled every slot and drained the queue, and the
output is exactly what the walk wrote. -/
theorem orderReferrals_success (db : RefDB) (refs out : List Referral)
    (h : OrderReferrals db refs = (true, out)) (hne : refs.isEmpty = false) :
    (hoarePartition (storeOk db) refs).2 ≠ 0 ∧
    (bfsGo (buildGraph ((hoarePartition (storeOk db) refs).1.take
        (hoarePartition (storeOk db) refs).2)
        ((hoarePartition (storeOk db) refs).1.drop
        (hoarePartition (storeOk db) refs).2))
      refs.length
      ((hoarePartition (storeOk db) refs).1.take
        (hoarePartition (storeOk db) refs).2) []).1 = out ∧
    out.length = refs.length ∧
    (bfsGo (buildGraph ((hoarePartition (storeOk db) refs).1.take
        (hoarePartition (storeOk db) refs).2)
        ((hoarePartition (storeOk db) refs).1.drop
        (hoarePartition (storeOk db) refs).2))
      refs.length
      ((hoarePartition (storeOk db) refs).1.take
        (hoarePartition (storeOk db) refs).2) []).2 = [] := by
  rw [OrderReferrals] at h
  rw [if_neg (by rw [hne]; exact Bool.false_ne_true)] at h
  set pr := hoarePartition (storeOk db) refs with hprdef
  set G := buildGraph (pr.1.take pr.2) (pr.1.drop pr.2) with hGdef
  set res := bfsGo G refs.length (pr.1.take pr.2) [] with hresdef
  by_cases hk : pr.2 = 0
  · rw [if_pos hk] at h
    exact absurd (congrArg Prod.fst h) (by simp)
  · rw [if_neg hk] at h
    by_cases hcond : res.1.length = refs.length ∧ res.2.isEmpty = true
    · obtain ⟨hlen, hemp⟩ := hcond
      rw [if_pos (by simp [hlen, hemp])] at h
      have hplen : pr.1.length = refs.length := (hoarePartition_spec (storeOk db) refs).2.1
      have hdrop : pr.1.drop res.1.length = [] := by
        rw [hlen, ← hplen]
        exact List.drop_length _
      have hout := congrArg Prod.snd h
      simp only at hout
      rw [hdrop, List.append_nil] at hout
      exact ⟨hk, hout, by rw [← hout, hlen], List.isEmpty_iff.mp hemp⟩
    · have hfalse : (decide (res.1.length = refs.length) && res.2.isEmpty) = false := by
        by_cases h1 : res.1.length = refs.length
        · have h2 : res.2.isEmpty = false := by
            cases h2c : res.2.isEmpty
            · rfl
            · exact absurd ⟨h1, h2c⟩ hcond
          rw [h2, Bool.and_false]
        · simp [h1]
      rw [if_neg (by rw [hfalse]; exact Bool.false_ne_true)] at h
      exact absurd (congrArg Prod.fst h) (by simp)

/-- C1.  Batch orderer soundness: when OrderReferrals returns true, every
element of the resulting list either resolves in the persistent store
(GetReferral of its previousReferral succeeds) or repeats the code hash of an
earlier element of the result. -/
theorem orderReferrals_sound (db : RefDB) (refs out : List Referral)
    (h : OrderReferrals db refs = (true, out)) :
    ∀ i, i < out.length → storeOk db (out.getD i default) = true ∨
      ∃ j, j < i ∧
        (out.getD j default).codeHash = (out.getD i default).previousReferral := by
  by_cases hne : refs.isEmpty
  · have hout : refs = out := by
      rw [OrderReferrals, if_pos hne] at h
      exact congrArg Prod.snd h
    rw [List.isEmpty_iff] at hne
    subst hne
    rw [← hout]
    intro i hi
    exact absurd hi (by simp)
  · obtain ⟨hk, hout, hlen, hqnil⟩ := orderReferrals_success db refs out h
      (Bool.not_eq_true _ ▸ hne)
    rw [← hout]
    refine bfsGo_sound db _ ?_ refs.length _ [] ?_ ?_
    · intro hh r hr
      rw [buildGraph_getD] at hr
      have hmem := List.mem_filter.mp hr
      exact beq_iff_eq.mp hmem.2
    · intro i hi
      exact absurd hi (by simp)
    · intro c hc
      obtain ⟨n, hn, hval⟩ := List.mem_iff_getElem.mp hc
      have hnlt : n < (hoarePartition (storeOk db) refs).2 := by
        have := hn
        rw [List.length_take] at this
        omega
      have hnlen : n < (hoarePartition (storeOk db) refs).1.length := by
        have hk2 := (hoarePartition_spec (storeOk db) refs).2.2.1
        have hplen := (hoarePartition_spec (storeOk db) refs).2.1
        omega
      left
      have hval2 : (hoarePartition (storeOk db) refs).1[n] = c := by
        rw [← hval, List.getElem_take]
      have := (hoarePartition_spec (storeOk db) refs).2.2.2.1 n hnlt
      rw [List.getD_eq_getElem _ default hnlen, hval2] at this
      exact this

/-- C1 witness: a concrete chain batch on which the orderer succeeds. -/
theorem orderReferrals_sound_witness :
    (OrderReferrals dbAnchor
        [⟨44, 1, 44, 4, 3, 43⟩, ⟨43, 1, 43, 3, 2, 42⟩, ⟨42, 1, 42, 2, 100, 0⟩] =
      (true, [⟨42, 1, 42, 2, 100, 0⟩, ⟨43, 1, 43, 3, 2, 42⟩, ⟨44, 1, 44, 4, 3, 43⟩])) ∧
    (∀ i, i < ([⟨42, 1, 42, 2, 100, 0⟩, ⟨43, 1, 43, 3, 2, 42⟩,
        ⟨44, 1, 44, 4, 3, 43⟩] : List Referral).length →
      storeOk dbAnchor (([⟨42, 1, 42, 2, 100, 0⟩, ⟨43, 1, 43, 3, 2, 42⟩,
        ⟨44, 1, 44, 4, 3, 43⟩] : List Referral).getD i default) = true ∨
      ∃ j, j < i ∧
        (([⟨42, 1, 42, 2, 100, 0⟩, ⟨43, 1, 43, 3, 2, 42⟩,
          ⟨44, 1, 44, 4, 3, 43⟩] : List Referral).getD j default).codeHash =
        (([⟨42, 1, 42, 2, 100, 0⟩, ⟨43, 1, 43, 3, 2, 42⟩,
          ⟨44, 1, 44, 4, 3, 43⟩] : List Referral).getD i default).previousReferral) :=
  ⟨by decide,
    orderReferrals_sound dbAnchor
      [⟨44, 1, 44, 4, 3, 43⟩, ⟨43, 1, 43, 3, 2, 42⟩, ⟨42, 1, 42, 2, 100, 0⟩]
      [⟨42, 1, 42, 2, 100, 0⟩, ⟨43, 1, 43, 3, 2, 42⟩, ⟨44, 1, 44, 4, 3, 43⟩]
      (by decide)⟩

/-! ## C3: order of the emitted roots -/

/-- The walk first writes out the queued elements it has room for; children
are only appended behind them. -/
theorem bfsGo_prefix (g : Nat → Option (List Referral)) :
    ∀ (slots : Nat) (q out : List Referral),
      ∃ rest, (bfsGo g slots q out).1 = (out ++ q.take slots) ++ rest := by
  intro slots
  induction slots with
  | zero =>
      intro q out
      exact ⟨[], by simp [bfsGo]⟩
  | succ slots ih =>
      intro q out
      cases q with
      | nil => exact ⟨[], by simp [bfsGo]⟩
      | cons r rest0 =>
          obtain ⟨rest, hrest⟩ := ih (rest0 ++ (g r.codeHash).getD []) (out ++ [r])
          refine ⟨((g r.codeHash).getD []).take (slots - rest0.length) ++ rest, ?_⟩
          show (bfsGo g slots (rest0 ++ (g r.codeHash).getD []) (out ++ [r])).1 = _
          rw [hrest, List.take_append_eq_append_take]
          simp [List.append_assoc, List.take_cons]

/-- C3 counterexample.  The claim states that the partition preserves the
relative input order of the roots and that the roots are emitted in their
original relative order.  The source uses std::partition, an unstable
partition (modelled as the libstdc++ two-pointer sweep): on the batch
interior, root R1 (code hash 11), root R2 (code hash 12) the two roots are
both store-resolvable, R1 precedes R2 in the input, yet the call succeeds
emitting R2 before R1. -/
theorem orderReferrals_order_cex :
    storeOk dbAnchor ⟨21, 1, 21, 11, 100, 0⟩ = true ∧
    storeOk dbAnchor ⟨22, 1, 22, 12, 100, 0⟩ = true ∧
    OrderReferrals dbAnchor
        [⟨23, 1, 23, 13, 11, 21⟩, ⟨21, 1, 21, 11, 100, 0⟩, ⟨22, 1, 22, 12, 100, 0⟩] =
      (true, [⟨22, 1, 22, 12, 100, 0⟩, ⟨21, 1, 21, 11, 100, 0⟩,
        ⟨23, 1, 23, 13, 11, 21⟩]) := by
  decide

/-- C4 witness: a three-address chain, each holding an ANV record. -/
theorem updateANV_rootPath_witness :
    (isRootPath dbChain3 1 [1, 2, 3] = true ∧ ([1, 2, 3] : List Nat).Nodup ∧
      (∀ a ∈ ([1, 2, 3] : List Nat), ((dbChain3).anv a).isSome) ∧
      ([1, 2, 3] : List Nat).length ≤ MAX_LEVELS) ∧
    ((UpdateANV dbChain3 1 1 100).1 = true ∧
      (∀ a ∈ ([1, 2, 3] : List Nat), ∃ ty pk amt,
        dbChain3.anv a = some (ty, pk, amt) ∧
        (UpdateANV dbChain3 1 1 100).2.anv a = some (ty, pk, amt + 100)) ∧
      (∀ a, a ∉ ([1, 2, 3] : List Nat) →
        (UpdateANV dbChain3 1 1 100).2.anv a = dbChain3.anv a) ∧
      (([1, 2, 3] : List Nat).map (anvAmount (UpdateANV dbChain3 1 1 100).2)).sum =
        (([1, 2, 3] : List Nat).map (anvAmount dbChain3)).sum +
          100 * ([1, 2, 3] : List Nat).length) :=
  ⟨⟨by decide, by decide, by decide, by norm_num [MAX_LEVELS]⟩,
    updateANV_rootPath dbChain3 1 1 100 [1, 2, 3] (by decide) (by decide)
      (by decide) (by norm_num [MAX_LEVELS])⟩

/-! ## C2: completeness of the batch orderer -/

/-- Reading the suffix of a drop is reading the original list further in. -/
theorem getD_drop {α : Type} [Inhabited α] (l : List α) (k i : Nat) :
    (l.drop k).getD i default = l.getD (k + i) default := by
  rw [List.getD_eq_getElem?_getD, List.getD_eq_getElem?_getD, List.getElem?_drop]

/-- Reading inside the list bounds is membership. -/
theorem getD_mem {α : Type} [Inhabited α] (l : List α) (i : Nat)
    (h : i < l.length) : l.getD i default ∈ l := by
  rw [List.getD_eq_getElem l default h]
  exact List.getElem_mem h

/-- The position of the element read at an index is at most that index. -/
theorem indexOf_getD_le {α : Type} [DecidableEq α] [Inhabited α] :
    ∀ (l : List α) (j : Nat), j < l.length →
      List.indexOf (l.getD j default) l ≤ j := by
  intro l
  induction l with
  | nil => intro j hj; exact absurd hj (by simp)
  | cons a t ih =>
      intro j hj
      cases j with
      | zero =>
          rw [List.getD_cons_zero, List.indexOf_cons_self]
      | succ j =>
          rw [List.getD_cons_succ]
          by_cases hax : a = t.getD j default
          · rw [← hax, List.indexOf_cons_self]
            omega
          · rw [List.indexOf_cons_ne t hax]
            have hjt : j < t.length := by
              rw [List.length_cons] at hj
              omega
            have := ih j hjt
            omega

/-- Every element of the kept prefix of a partition satisfies the
predicate. -/
theorem pred_true_of_mem_take {α : Type} [Inhabited α] (p : α → Bool)
    (l : List α) (k : Nat)
    (hsplit : ∀ i, i < k → p (l.getD i default) = true)
    (c : α) (hc : c ∈ l.take k) : p c = true := by
  obtain ⟨i, hi, hgi⟩ := mem_getD hc
  have hik : i < k := by
    rw [List.length_take, lt_min_iff] at hi
    exact hi.1
  have hil : i < l.length := by
    rw [List.length_take, lt_min_iff] at hi
    exact hi.2
  have hrd : (l.take k).getD i default = l.getD i default := by
    rw [List.getD_eq_getElem (l.take k) default hi,
      List.getD_eq_getElem l default hil]
    exact List.getElem_take l
  rw [← hgi, hrd]
  exact hsplit i hik

/-- An element of the partition outside the kept prefix fails the
predicate. -/
theorem pred_false_of_not_mem_take {α : Type} [Inhabited α] (p : α → Bool)
    (l : List α) (k : Nat)
    (hsplit : ∀ i, k ≤ i → i < l.length → p (l.getD i default) = false)
    (r : α) (hr : r ∈ l) (hnt : ¬ r ∈ l.take k) : p r = false := by
  obtain ⟨i, hi, hgi⟩ := mem_getD hr
  by_cases hik : i < k
  · exfalso
    apply hnt
    have hitk : i < (l.take k).length := by
      rw [List.length_take, lt_min_iff]
      exact ⟨hik, hi⟩
    have hrd : (l.take k).getD i default = l.getD i default := by
      rw [List.getD_eq_getElem (l.take k) default hitk,
        List.getD_eq_getElem l default hi]
      exact List.getElem_take l
    rw [← hgi, ← hrd]
    exact getD_mem (l.take k) i hitk
  · rw [← hgi]
    exact hsplit i (by omega) hi

/-- An element of the partition failing the predicate lies in the dropped
suffix. -/
theorem mem_drop_of_pred_false {α : Type} [Inhabited α] (p : α → Bool)
    (l : List α) (k : Nat)
    (hsplit : ∀ i, i < k → p (l.getD i default) = true)
    (r : α) (hr : r ∈ l) (hf : p r = false) : r ∈ l.drop k := by
  obtain ⟨i, hi, hgi⟩ := mem_getD hr
  have hik : k ≤ i := by
    by_contra hcon
    have hT := hsplit i (by omega)
    rw [hgi, hf] at hT
    exact Bool.false_ne_true hT
  have hdl : i - k < (l.drop k).length := by
    rw [List.length_drop]
    omega
  have hig : (l.drop k).getD (i - k) default = l.getD i default := by
    rw [getD_drop, show k + (i - k) = i from by omega]
  rw [← hgi, ← hig]
  exact getD_mem (l.drop k) (i - k) hdl

/-- Completeness of the breadth first walk: over a partition with pairwise
distinct code hashes, when every store-unresolvable element has a partition
element carrying its previous hash that some admissible order ranks strictly
earlier, the walk fills every slot and drains its queue. -/
theorem bfsGo_complete (db : RefDB) (parted σ : List Referral)
    (g : Nat → Option (List Referral)) (k : Nat)
    (hnd : (parted.map (fun r => r.codeHash)).Nodup)
    (hglookup : ∀ h, (g h).getD [] =
      (parted.drop k).filter (fun r => r.previousReferral == h))
    (hintf : ∀ r ∈ parted.drop k, storeOk db r = false)
    (hfint : ∀ r ∈ parted, storeOk db r = false → r ∈ parted.drop k)
    (hparent : ∀ r ∈ parted, storeOk db r = false →
      ∃ pr ∈ parted, pr.codeHash = r.previousReferral ∧
        List.indexOf pr σ < List.indexOf r σ) :
    ∀ (slots : Nat) (q out : List Referral),
      (out ++ q).Nodup →
      (∀ x ∈ out ++ q, x ∈ parted) →
      (∀ c ∈ out ++ q, storeOk db c = true ∨
        ∃ p ∈ out, p.codeHash = c.previousReferral) →
      (∀ r ∈ parted, ¬ r ∈ out ++ q →
        storeOk db r = false ∧ ∀ p ∈ out, p.codeHash ≠ r.previousReferral) →
      slots = parted.length - out.length →
      (bfsGo g slots q out).1.length = parted.length ∧
        (bfsGo g slots q out).2 = [] := by
  have hndp : parted.Nodup := List.Nodup.of_map _ hnd
  intro slots
  induction slots with
  | zero =>
      intro q out ha hsub he hf hslots
      have hout_sub : out ⊆ parted :=
        fun x hx => hsub x (List.mem_append_left _ hx)
      have hout_nd : out.Nodup := ((List.nodup_append).mp ha).1
      have hle : out.length ≤ parted.length :=
        (hout_nd.subperm hout_sub).length_le
      refine ⟨?_, ?_⟩
      · show out.length = parted.length
        omega
      · show q = []
        rw [List.eq_nil_iff_forall_not_mem]
        intro x hxq
        have hxp : x ∈ parted := hsub x (List.mem_append_right _ hxq)
        have hperm : out.Perm parted :=
          (hout_nd.subperm hout_sub).perm_of_length_le (by omega)
        have hxo : x ∈ out := hperm.mem_iff.mpr hxp
        exact ((List.nodup_append).mp ha).2.2 hxo hxq
  | succ slots ih =>
      intro q out ha hsub he hf hslots
      cases q with
      | nil =>
          have hout_sub : out ⊆ parted :=
            fun x hx => hsub x (List.mem_append_left _ hx)
          have hout_nd : out.Nodup := ((List.nodup_append).mp ha).1
          have hle : out.length ≤ parted.length :=
            (hout_nd.subperm hout_sub).length_le
          have hall : ∀ x ∈ parted, x ∈ out := by
            intro x hx
            by_contra hnx
            have hdesc : ∀ n, ∀ y, y ∈ parted → ¬ y ∈ out →
                ¬ List.indexOf y σ < n := by
              intro n
              induction n with
              | zero => intro y _ _ hltc; omega
              | succ n ihn =>
                  intro y hy hny hltc
                  have hfy := hf y hy (by
                    rw [List.append_nil]
                    exact hny)
                  obtain ⟨hyf, hyne⟩ := hfy
                  obtain ⟨pr, hpr, hprch, hprlt⟩ := hparent y hy hyf
                  by_cases hpro : pr ∈ out
                  · exact hyne pr hpro hprch
                  · exact ihn pr hpr hpro (by omega)
            exact hdesc (List.indexOf x σ + 1) x hx hnx (by omega)
          have hpsub : parted ⊆ out := by
            intro x hx
            exact hall x hx
          have hge : parted.length ≤ out.length :=
            (hndp.subperm hpsub).length_le
          refine ⟨?_, rfl⟩
          show out.length = parted.length
          omega
      | cons r q' =>
          have hstep : bfsGo g (slots + 1) (r :: q') out =
              bfsGo g slots (q' ++ (g r.codeHash).getD []) (out ++ [r]) := rfl
          rw [hstep]
          have hch : (g r.codeHash).getD [] =
              (parted.drop k).filter (fun x => x.previousReferral == r.codeHash) :=
            hglookup r.codeHash
          have hrq : r ∈ out ++ r :: q' :=
            List.mem_append_right _ (List.mem_cons_self r q')
          have hrp : r ∈ parted := hsub r hrq
          have hinj := List.inj_on_of_nodup_map hnd
          have hr_not_out : r ∉ out := by
            intro hro
            exact ((List.nodup_append).mp ha).2.2 hro (List.mem_cons_self r q')
          have hch_sub : ∀ c, c ∈ (g r.codeHash).getD [] →
              c ∈ parted.drop k ∧ c.previousReferral = r.codeHash := by
            intro c hc
            rw [hch] at hc
            have hm := List.mem_filter.mp hc
            exact ⟨hm.1, beq_iff_eq.mp hm.2⟩
          have hdrop_sub : parted.drop k ⊆ parted :=
            (List.drop_sublist k parted).subset
          have hdisj : ∀ c ∈ out ++ r :: q', c ∉ (g r.codeHash).getD [] := by
            intro c hcin hcch
            obtain ⟨hcd, hcprev⟩ := hch_sub c hcch
            have hcf : storeOk db c = false := hintf c hcd
            rcases he c hcin with htrue | ⟨p, hpo, hpch⟩
            · rw [hcf] at htrue
              exact Bool.false_ne_true htrue
            · have hpp : p ∈ parted := hsub p (List.mem_append_left _ hpo)
              have hpeq : p = r := hinj hpp hrp (by rw [hpch, hcprev])
              rw [hpeq] at hpo
              exact hr_not_out hpo
          have hch_nd : ((g r.codeHash).getD []).Nodup := by
            rw [hch]
            exact List.Nodup.filter _
              (List.Nodup.sublist (List.drop_sublist k parted) hndp)
          have ha2 : ((out ++ [r]) ++ (q' ++ (g r.codeHash).getD [])).Nodup := by
            have heq : (out ++ [r]) ++ (q' ++ (g r.codeHash).getD []) =
                (out ++ r :: q') ++ (g r.codeHash).getD [] := by
              simp [List.append_assoc]
            rw [heq, List.nodup_append]
            refine ⟨ha, hch_nd, ?_⟩
            intro x hx1 hx2
            exact hdisj x hx1 hx2
          have hsub2 : ∀ x ∈ (out ++ [r]) ++ (q' ++ (g r.codeHash).getD []),
              x ∈ parted := by
            intro x hx
            rcases List.mem_append.mp hx with hx1 | hx2
            · rcases List.mem_append.mp hx1 with hxo | hxr
              · exact hsub x (List.mem_append_left _ hxo)
              · rw [List.mem_singleton.mp hxr]
                exact hrp
            · rcases List.mem_append.mp hx2 with hxq | hxc
              · exact hsub x
                  (List.mem_append_right _ (List.mem_cons_of_mem r hxq))
              · exact hdrop_sub (hch_sub x hxc).1
          have he2 : ∀ c ∈ (out ++ [r]) ++ (q' ++ (g r.codeHash).getD []),
              storeOk db c = true ∨
                ∃ p ∈ out ++ [r], p.codeHash = c.previousReferral := by
            intro c hc
            rcases List.mem_append.mp hc with hc1 | hc2
            · rcases List.mem_append.mp hc1 with hco | hcr
              · rcases he c (List.mem_append_left _ hco) with ht | ⟨p, hpo, hpch⟩
                · exact Or.inl ht
                · exact Or.inr ⟨p, List.mem_append_left _ hpo, hpch⟩
              · rw [List.mem_singleton.mp hcr]
                rcases he r hrq with ht | ⟨p, hpo, hpch⟩
                · exact Or.inl ht
                · exact Or.inr ⟨p, List.mem_append_left _ hpo, hpch⟩
            · rcases List.mem_append.mp hc2 with hcq | hcc
              · rcases he c (List.mem_append_right _ (List.mem_cons_of_mem r hcq))
                  with ht | ⟨p, hpo, hpch⟩
                · exact Or.inl ht
                · exact Or.inr ⟨p, List.mem_append_left _ hpo, hpch⟩
              · refine Or.inr ⟨r,
                  List.mem_append_right _ (List.mem_singleton.mpr rfl), ?_⟩
                exact (hch_sub c hcc).2.symm
          have hf2 : ∀ x ∈ parted,
              ¬ x ∈ (out ++ [r]) ++ (q' ++ (g r.codeHash).getD []) →
              storeOk db x = false ∧
                ∀ p ∈ out ++ [r], p.codeHash ≠ x.previousReferral := by
            intro x hx hnx
            have hnx' : ¬ x ∈ out ++ r :: q' := by
              intro hmem
              apply hnx
              rcases List.mem_append.mp hmem with hxo | hxrq
              · exact List.mem_append_left _ (List.mem_append_left _ hxo)
              · rcases List.mem_cons.mp hxrq with hxr | hxq
                · exact List.mem_append_left _
                    (List.mem_append_right _ (List.mem_singleton.mpr hxr))
                · exact List.mem_append_right _ (List.mem_append_left _ hxq)
            obtain ⟨hxf, hxne⟩ := hf x hx hnx'
            refine ⟨hxf, ?_⟩
            intro p hp hpch
            rcases List.mem_append.mp hp with hpo | hpr
            · exact hxne p hpo hpch
            · have hpr' : p = r := List.mem_singleton.mp hpr
              apply hnx
              have hxd : x ∈ parted.drop k := hfint x hx hxf
              have hxch : x ∈ (g r.codeHash).getD [] := by
                rw [hch]
                refine List.mem_filter.mpr ⟨hxd, ?_⟩
                rw [beq_iff_eq, ← hpch, hpr']
              exact List.mem_append_right _ (List.mem_append_right _ hxch)
          have hout_sub : out ⊆ parted :=
            fun x hx => hsub x (List.mem_append_left _ hx)
          have hout_nd : out.Nodup := ((List.nodup_append).mp ha).1
          have hle : out.length ≤ parted.length :=
            (hout_nd.subperm hout_sub).length_le
          have hslots2 : slots = parted.length - (out ++ [r]).length := by
            rw [List.length_append, List.length_singleton]
            omega
          exact ih (q' ++ (g r.codeHash).getD []) (out ++ [r])
            ha2 hsub2 he2 hf2 hslots2

/-- C2.  Batch orderer completeness, amended with a distinctness premise: for
every batch whose code hashes are pairwise distinct and that admits at least
one ordering in which each element either resolves in the persistent store or
repeats the code hash of an earlier element, OrderReferrals returns true.
(Without the distinctness premise the claim fails: see the counterexample,
where a duplicated code hash makes the walk re-enqueue a child and the queue
never drains.) -/
theorem orderReferrals_complete (db : RefDB) (refs : List Referral)
    (hnd : (refs.map (fun r => r.codeHash)).Nodup)
    (hex : ∃ σ, refs.Perm σ ∧ SoundOut db σ) :
    (OrderReferrals db refs).1 = true := by
  obtain ⟨σ, hσperm, hσsound⟩ := hex
  by_cases hne : refs.isEmpty
  · rw [OrderReferrals, if_pos hne]
  · rw [OrderReferrals]
    rw [if_neg hne]
    set pr := hoarePartition (storeOk db) refs with hprdef
    set G := buildGraph (pr.1.take pr.2) (pr.1.drop pr.2) with hGdef
    set res := bfsGo G refs.length (pr.1.take pr.2) [] with hresdef
    have hspec := hoarePartition_spec (storeOk db) refs
    rw [← hprdef] at hspec
    obtain ⟨hperm, hplen, hkle, hsplitT, hsplitF⟩ := hspec
    have hsplitF' : ∀ i, pr.2 ≤ i → i < pr.1.length →
        storeOk db (pr.1.getD i default) = false := by
      intro i h1 h2
      exact hsplitF i h1 (by omega)
    by_cases hk : pr.2 = 0
    · exfalso
      have hrne : refs ≠ [] := by
        intro hcon
        rw [hcon] at hne
        exact hne rfl
      have hσne : 0 < σ.length := by
        have h1 : refs.length = σ.length := hσperm.length_eq
        have h2 : 0 < refs.length := List.length_pos.mpr hrne
        omega
      have h0 := hσsound 0 hσne
      have hc : storeOk db (σ.getD 0 default) = true := by
        rcases h0 with ht | ⟨j, hj, _⟩
        · exact ht
        · omega
      have hcp : σ.getD 0 default ∈ pr.1 := by
        have h1 : σ.getD 0 default ∈ refs :=
          hσperm.mem_iff.mpr (getD_mem σ 0 hσne)
        exact (hperm.mem_iff).mpr h1
      obtain ⟨i, hi, hgi⟩ := mem_getD hcp
      have hfI : storeOk db (pr.1.getD i default) = false := by
        apply hsplitF'
        · omega
        · omega
      rw [hgi, hc] at hfI
      exact absurd hfI (by decide)
    · rw [if_neg hk]
      have hndP : (pr.1.map (fun r => r.codeHash)).Nodup := by
        have hm := hperm.map (fun r => r.codeHash)
        exact (hm.nodup_iff).mpr hnd
      have hglookup : ∀ h, (G h).getD [] =
          (pr.1.drop pr.2).filter (fun x => x.previousReferral == h) := by
        intro h
        rw [hGdef]
        exact buildGraph_getD _ _ h
      have hintf : ∀ x ∈ pr.1.drop pr.2, storeOk db x = false := by
        intro x hx
        obtain ⟨i, hi, hgi⟩ := mem_getD hx
        rw [List.length_drop] at hi
        rw [← hgi, getD_drop]
        exact hsplitF' (pr.2 + i) (by omega) (by omega)
      have hfint : ∀ x ∈ pr.1, storeOk db x = false → x ∈ pr.1.drop pr.2 :=
        fun x hx hxf =>
          mem_drop_of_pred_false (storeOk db) pr.1 pr.2 hsplitT x hx hxf
      have hparent : ∀ x ∈ pr.1, storeOk db x = false →
          ∃ pa ∈ pr.1, pa.codeHash = x.previousReferral ∧
            List.indexOf pa σ < List.indexOf x σ := by
        intro x hx hxf
        have hxσ : x ∈ σ := hσperm.mem_iff.mp (hperm.mem_iff.mp hx)
        have hilt : List.indexOf x σ < σ.length :=
          List.indexOf_lt_length.mpr hxσ
        have hgx : σ.getD (List.indexOf x σ) default = x := by
          rw [List.getD_eq_getElem σ default hilt]
          exact List.getElem_indexOf hilt
        rcases hσsound (List.indexOf x σ) hilt with ht | ⟨j, hj, hchh⟩
        · rw [hgx, hxf] at ht
          exact absurd ht (by decide)
        · have hjlt : j < σ.length := by omega
          refine ⟨σ.getD j default, ?_, ?_, ?_⟩
          · exact hperm.mem_iff.mpr (hσperm.mem_iff.mpr (getD_mem σ j hjlt))
          · rw [hgx] at hchh
            exact hchh
          · have hle := indexOf_getD_le σ j hjlt
            omega
      have hroots_nd : (([] : List Referral) ++ pr.1.take pr.2).Nodup := by
        rw [List.nil_append]
        exact List.Nodup.sublist (List.take_sublist pr.2 pr.1)
          (List.Nodup.of_map _ hndP)
      have hroots_sub : ∀ x ∈ ([] : List Referral) ++ pr.1.take pr.2,
          x ∈ pr.1 := by
        intro x hx
        rw [List.nil_append] at hx
        exact (List.take_sublist pr.2 pr.1).subset hx
      have hroots_e : ∀ c ∈ ([] : List Referral) ++ pr.1.take pr.2,
          storeOk db c = true ∨
            ∃ p ∈ ([] : List Referral), p.codeHash = c.previousReferral := by
        intro c hc
        rw [List.nil_append] at hc
        exact Or.inl (pred_true_of_mem_take (storeOk db) pr.1 pr.2 hsplitT c hc)
      have hroots_f : ∀ x ∈ pr.1,
          ¬ x ∈ ([] : List Referral) ++ pr.1.take pr.2 →
          storeOk db x = false ∧
            ∀ p ∈ ([] : List Referral), p.codeHash ≠ x.previousReferral := by
        intro x hx hnx
        rw [List.nil_append] at hnx
        refine ⟨pred_false_of_not_mem_take (storeOk db) pr.1 pr.2
          hsplitF' x hx hnx, ?_⟩
        intro p hp
        exact absurd hp (List.not_mem_nil p)
      have hslots0 : refs.length = pr.1.length - ([] : List Referral).length := by
        simp [hplen]
      have hmain := bfsGo_complete db pr.1 σ G pr.2 hndP hglookup hintf hfint
        hparent refs.length (pr.1.take pr.2) [] hroots_nd hroots_sub hroots_e
        hroots_f hslots0
      rw [← hresdef] at hmain
      have hcond : (decide (res.1.length = refs.length) && res.2.isEmpty) = true := by
        rw [hmain.2]
        simp [hmain.1, hplen]
      rw [if_pos hcond]

/-- C2 counterexample: a two-element batch whose elements share one code hash
admits a valid ordering (itself: the first element resolves in the store and
the second repeats the code hash of the first), yet OrderReferrals rejects
the batch: the breadth first walk re-enqueues the duplicate-keyed child and
the queue never drains. -/
theorem orderReferrals_complete_cex :
    (∃ σ : List Referral,
        ([⟨31, 1, 31, 7, 100, 0⟩, ⟨32, 1, 32, 7, 7, 31⟩] : List Referral).Perm σ ∧
          SoundOut dbAnchor σ) ∧
    (OrderReferrals dbAnchor
        [⟨31, 1, 31, 7, 100, 0⟩, ⟨32, 1, 32, 7, 7, 31⟩]).1 = false :=
  ⟨⟨[⟨31, 1, 31, 7, 100, 0⟩, ⟨32, 1, 32, 7, 7, 31⟩], List.Perm.refl _, by decide⟩,
    by decide⟩

/-- C2 witness: a two-element chain with distinct code hashes, ordered
validly, is accepted by the orderer. -/
theorem orderReferrals_complete_witness :
    ((([⟨51, 1, 51, 5, 100, 0⟩, ⟨52, 1, 52, 6, 5, 51⟩] : List Referral).map
        (fun r => r.codeHash)).Nodup ∧
      SoundOut dbAnchor [⟨51, 1, 51, 5, 100, 0⟩, ⟨52, 1, 52, 6, 5, 51⟩]) ∧
    (OrderReferrals dbAnchor
        [⟨51, 1, 51, 5, 100, 0⟩, ⟨52, 1, 52, 6, 5, 51⟩]).1 = true :=
  ⟨⟨by decide, by decide⟩,
    orderReferrals_complete dbAnchor
      [⟨51, 1, 51, 5, 100, 0⟩, ⟨52, 1, 52, 6, 5, 51⟩]
      (by decide)
      ⟨[⟨51, 1, 51, 5, 100, 0⟩, ⟨52, 1, 52, 6, 5, 51⟩],
        List.Perm.refl _, by decide⟩⟩

/-! ## C3: order of the emitted roots and of sibling ties -/

/-- Sibling ordering of a stream relative to the interior scan: whenever two
interior referrals share a previous hash and the first precedes the second in
the interior scan, the second's presence in the stream forces the first to
sit strictly earlier in the stream. -/
def SibOrd (interior stream : List Referral) : Prop :=
  ∀ x y, x ∈ interior → y ∈ interior →
    x.previousReferral = y.previousReferral →
    List.indexOf x interior < List.indexOf y interior →
    y ∈ stream → x ∈ stream ∧ List.indexOf x stream < List.indexOf y stream

/-- In a duplicate-free list the position of the element read at an index is
that index. -/
theorem nodup_indexOf_getD {α : Type} [DecidableEq α] [Inhabited α]
    (l : List α) (hnd : l.Nodup) (i : Nat) (hi : i < l.length) :
    List.indexOf (l.getD i default) l = i := by
  set a := l.getD i default with hadef
  have hmem : a ∈ l := getD_mem l i hi
  have hlt : List.indexOf a l < l.length := List.indexOf_lt_length.mpr hmem
  have hget : l[List.indexOf a l] = a := List.getElem_indexOf hlt
  have hgi : l[i] = a := by
    rw [hadef]
    exact (List.getD_eq_getElem l default hi).symm
  exact (List.Nodup.getElem_inj_iff hnd).mp (hget.trans hgi.symm)

/-- Filtering a duplicate-free list preserves the relative order of the kept
elements. -/
theorem filter_indexOf_lt {α : Type} [DecidableEq α] (p : α → Bool) :
    ∀ (l : List α), l.Nodup → ∀ x y, x ∈ l.filter p → y ∈ l.filter p →
      List.indexOf x l < List.indexOf y l →
      List.indexOf x (l.filter p) < List.indexOf y (l.filter p) := by
  intro l
  induction l with
  | nil => intro _ x y hx _ _; exact absurd hx (by simp)
  | cons a t ih =>
      intro hnd x y hx hy hlt
      obtain ⟨hat, hndt⟩ := List.nodup_cons.mp hnd
      by_cases hpa : p a = true
      · rw [List.filter_cons_of_pos hpa] at hx hy ⊢
        by_cases hxa : x = a
        · have hya : y ≠ a := by
            intro hyeq
            rw [hxa, hyeq, List.indexOf_cons_self] at hlt
            omega
          rw [hxa, List.indexOf_cons_self,
            List.indexOf_cons_ne _ (Ne.symm hya)]
          exact Nat.succ_pos _
        · by_cases hya : y = a
          · rw [hya, List.indexOf_cons_self] at hlt
            omega
          · rw [List.indexOf_cons_ne t (Ne.symm hxa),
              List.indexOf_cons_ne t (Ne.symm hya)] at hlt
            have hxt : x ∈ t.filter p := by
              rcases List.mem_cons.mp hx with h1 | h2
              · exact absurd h1 hxa
              · exact h2
            have hyt : y ∈ t.filter p := by
              rcases List.mem_cons.mp hy with h1 | h2
              · exact absurd h1 hya
              · exact h2
            have hres := ih hndt x y hxt hyt (by omega)
            rw [List.indexOf_cons_ne _ (Ne.symm hxa),
              List.indexOf_cons_ne _ (Ne.symm hya)]
            omega
      · rw [List.filter_cons_of_neg hpa] at hx hy ⊢
        have hxt : x ∈ t := List.mem_of_mem_filter hx
        have hyt : y ∈ t := List.mem_of_mem_filter hy
        have hxa : x ≠ a := fun hc => hat (hc ▸ hxt)
        have hya : y ≠ a := fun hc => hat (hc ▸ hyt)
        rw [List.indexOf_cons_ne t (Ne.symm hxa),
          List.indexOf_cons_ne t (Ne.symm hya)] at hlt
        exact ih hndt x y hx hy (by omega)

/-- The breadth first walk preserves sibling ordering: over a partition with
pairwise distinct code hashes, each popped element appends its whole child
class in interior scan order to the combined written-then-queued stream, so
siblings always sit in the stream in scan order.  The walk also keeps the
stream duplicate-free and inside the partition. -/
theorem bfsGo_sibling (db : RefDB) (parted : List Referral)
    (g : Nat → Option (List Referral)) (k : Nat)
    (hnd : (parted.map (fun r => r.codeHash)).Nodup)
    (hglookup : ∀ h, (g h).getD [] =
      (parted.drop k).filter (fun r => r.previousReferral == h))
    (hintf : ∀ r ∈ parted.drop k, storeOk db r = false) :
    ∀ (slots : Nat) (q out : List Referral),
      (out ++ q).Nodup →
      (∀ x ∈ out ++ q, x ∈ parted) →
      (∀ c ∈ out ++ q, storeOk db c = true ∨
        ∃ p ∈ out, p.codeHash = c.previousReferral) →
      SibOrd (parted.drop k) (out ++ q) →
      ((bfsGo g slots q out).1 ++ (bfsGo g slots q out).2).Nodup ∧
        (∀ x ∈ (bfsGo g slots q out).1 ++ (bfsGo g slots q out).2, x ∈ parted) ∧
        SibOrd (parted.drop k) ((bfsGo g slots q out).1 ++ (bfsGo g slots q out).2) := by
  have hndp : parted.Nodup := List.Nodup.of_map _ hnd
  have hndI : (parted.drop k).Nodup :=
    List.Nodup.sublist (List.drop_sublist k parted) hndp
  intro slots
  induction slots with
  | zero => intro q out ha hsub he hs; exact ⟨ha, hsub, hs⟩
  | succ slots ih =>
      intro q out ha hsub he hs
      cases q with
      | nil => exact ⟨ha, hsub, hs⟩
      | cons r q' =>
          have hstep : bfsGo g (slots + 1) (r :: q') out =
              bfsGo g slots (q' ++ (g r.codeHash).getD []) (out ++ [r]) := rfl
          rw [hstep]
          have hch : (g r.codeHash).getD [] =
              (parted.drop k).filter (fun x => x.previousReferral == r.codeHash) :=
            hglookup r.codeHash
          have hrq : r ∈ out ++ r :: q' :=
            List.mem_append_right _ (List.mem_cons_self r q')
          have hrp : r ∈ parted := hsub r hrq
          have hinj := List.inj_on_of_nodup_map hnd
          have hr_not_out : r ∉ out := by
            intro hro
            exact ((List.nodup_append).mp ha).2.2 hro (List.mem_cons_self r q')
          have hch_sub : ∀ c, c ∈ (g r.codeHash).getD [] →
              c ∈ parted.drop k ∧ c.previousReferral = r.codeHash := by
            intro c hc
            rw [hch] at hc
            have hm := List.mem_filter.mp hc
            exact ⟨hm.1, beq_iff_eq.mp hm.2⟩
          have hdrop_sub : parted.drop k ⊆ parted :=
            (List.drop_sublist k parted).subset
          have hdisj : ∀ c ∈ out ++ r :: q', c ∉ (g r.codeHash).getD [] := by
            intro c hcin hcch
            obtain ⟨hcd, hcprev⟩ := hch_sub c hcch
            have hcf : storeOk db c = false := hintf c hcd
            rcases he c hcin with htrue | ⟨p, hpo, hpch⟩
            · rw [hcf] at htrue
              exact Bool.false_ne_true htrue
            · have hpp : p ∈ parted := hsub p (List.mem_append_left _ hpo)
              have hpeq : p = r := hinj hpp hrp (by rw [hpch, hcprev])
              rw [hpeq] at hpo
              exact hr_not_out hpo
          have hch_nd : ((g r.codeHash).getD []).Nodup := by
            rw [hch]
            exact List.Nodup.filter _ hndI
          have heqS : (out ++ [r]) ++ (q' ++ (g r.codeHash).getD []) =
              (out ++ r :: q') ++ (g r.codeHash).getD [] := by
            simp [List.append_assoc]
          have ha2 : ((out ++ [r]) ++ (q' ++ (g r.codeHash).getD [])).Nodup := by
            rw [heqS, List.nodup_append]
            refine ⟨ha, hch_nd, ?_⟩
            intro x hx1 hx2
            exact hdisj x hx1 hx2
          have hsub2 : ∀ x ∈ (out ++ [r]) ++ (q' ++ (g r.codeHash).getD []),
              x ∈ parted := by
            intro x hx
            rw [heqS] at hx
            rcases List.mem_append.mp hx with hx1 | hx2
            · exact hsub x hx1
            · exact hdrop_sub (hch_sub x hx2).1
          have he2 : ∀ c ∈ (out ++ [r]) ++ (q' ++ (g r.codeHash).getD []),
              storeOk db c = true ∨
                ∃ p ∈ out ++ [r], p.codeHash = c.previousReferral := by
            intro c hc
            rw [heqS] at hc
            rcases List.mem_append.mp hc with hc1 | hc2
            · rcases he c hc1 with ht | ⟨p, hpo, hpch⟩
              · exact Or.inl ht
              · exact Or.inr ⟨p, List.mem_append_left _ hpo, hpch⟩
            · refine Or.inr ⟨r,
                List.mem_append_right _ (List.mem_singleton.mpr rfl), ?_⟩
              exact (hch_sub c hc2).2.symm
          have hs2 : SibOrd (parted.drop k)
              ((out ++ [r]) ++ (q' ++ (g r.codeHash).getD [])) := by
            rw [heqS]
            intro x y hxI hyI hprev hrank hyin
            rcases List.mem_append.mp hyin with hys | hyc
            · obtain ⟨hxs, hltS⟩ := hs x y hxI hyI hprev hrank hys
              refine ⟨List.mem_append_left _ hxs, ?_⟩
              rw [List.indexOf_append_of_mem hxs, List.indexOf_append_of_mem hys]
              exact hltS
            · have hyprev : y.previousReferral = r.codeHash := (hch_sub y hyc).2
              have hxch : x ∈ (g r.codeHash).getD [] := by
                rw [hch]
                refine List.mem_filter.mpr ⟨hxI, ?_⟩
                rw [beq_iff_eq, hprev]
                exact hyprev
              have hxns : x ∉ out ++ r :: q' := fun hc => hdisj x hc hxch
              have hyns : y ∉ out ++ r :: q' := fun hc => hdisj y hc hyc
              refine ⟨List.mem_append_right _ hxch, ?_⟩
              rw [List.indexOf_append_of_not_mem hxns,
                List.indexOf_append_of_not_mem hyns]
              have hflt : List.indexOf x ((g r.codeHash).getD []) <
                  List.indexOf y ((g r.codeHash).getD []) := by
                rw [hch] at hxch hyc ⊢
                exact filter_indexOf_lt _ (parted.drop k) hndI x y hxch hyc hrank
              omega
          exact ih (q' ++ (g r.codeHash).getD []) (out ++ [r])
            ha2 hsub2 he2 hs2

/-- C3 amended.  On success the output begins with exactly the root segment
of the (unstable) partition in post-partition order: the roots are emitted
first, but their relative order is the order the partition sweep left them
in, not necessarily the input order.  And, when the code hashes of the batch
are pairwise distinct, ties among siblings — interior referrals sharing a
previous hash — follow the order encountered during the post-partition
interior scan: of two such siblings, the one at the earlier post-partition
position occupies the earlier output position. -/
theorem orderReferrals_rootsFirst (db : RefDB) (refs out : List Referral)
    (h : OrderReferrals db refs = (true, out)) :
    out.take (hoarePartition (storeOk db) refs).2 =
      (hoarePartition (storeOk db) refs).1.take
        (hoarePartition (storeOk db) refs).2 ∧
    ((refs.map (fun r => r.codeHash)).Nodup →
      ∀ i j, (hoarePartition (storeOk db) refs).2 ≤ i → i < j →
        j < (hoarePartition (storeOk db) refs).1.length →
        ((hoarePartition (storeOk db) refs).1.getD i default).previousReferral =
          ((hoarePartition (storeOk db) refs).1.getD j default).previousReferral →
        List.indexOf ((hoarePartition (storeOk db) refs).1.getD i default) out <
          List.indexOf ((hoarePartition (storeOk db) refs).1.getD j default) out) := by
  by_cases hne : refs.isEmpty
  · have hout : refs = out := by
      rw [OrderReferrals, if_pos hne] at h
      exact congrArg Prod.snd h
    rw [List.isEmpty_iff] at hne
    subst hne
    constructor
    · rw [← hout]
      rfl
    · intro _ i j hki hij hjlen _
      exfalso
      have hplen : (hoarePartition (storeOk db) ([] : List Referral)).1.length =
          ([] : List Referral).length :=
        (hoarePartition_spec (storeOk db) []).2.1
      rw [List.length_nil] at hplen
      omega
  · obtain ⟨hk, hout, hlen, hqnil⟩ := orderReferrals_success db refs out h
      (Bool.not_eq_true _ ▸ hne)
    have hksle : (hoarePartition (storeOk db) refs).2 ≤ refs.length :=
      (hoarePartition_spec (storeOk db) refs).2.2.1
    have hplen : (hoarePartition (storeOk db) refs).1.length = refs.length :=
      (hoarePartition_spec (storeOk db) refs).2.1
    constructor
    · set roots := (hoarePartition (storeOk db) refs).1.take
        (hoarePartition (storeOk db) refs).2 with hrootsdef
      have hrootlen : roots.length = (hoarePartition (storeOk db) refs).2 := by
        rw [hrootsdef, List.length_take]
        omega
      obtain ⟨rest, hrest⟩ := bfsGo_prefix
        (buildGraph roots ((hoarePartition (storeOk db) refs).1.drop
          (hoarePartition (storeOk db) refs).2))
        refs.length roots []
      rw [hout] at hrest
      have htake : roots.take refs.length = roots := by
        apply List.take_of_length_le
        rw [hrootlen]
        exact hksle
      rw [htake, List.nil_append] at hrest
      rw [hrest, ← hrootlen]
      exact List.take_left _ _
    · intro hnd i j hki hij hjlen hprev
      set pr := hoarePartition (storeOk db) refs with hprdef
      have hperm : pr.1.Perm refs := by
        have hp := (hoarePartition_spec (storeOk db) refs).1
        rw [← hprdef] at hp
        exact hp
      have hndP : (pr.1.map (fun r => r.codeHash)).Nodup :=
        ((hperm.map (fun r => r.codeHash)).nodup_iff).mpr hnd
      have hndp : pr.1.Nodup := List.Nodup.of_map _ hndP
      have hndI : (pr.1.drop pr.2).Nodup :=
        List.Nodup.sublist (List.drop_sublist pr.2 pr.1) hndp
      have hsplitT : ∀ i2, i2 < pr.2 →
          storeOk db (pr.1.getD i2 default) = true := by
        have hsT := (hoarePartition_spec (storeOk db) refs).2.2.2.1
        rw [← hprdef] at hsT
        exact hsT
      have hsplitF : ∀ i2, pr.2 ≤ i2 → i2 < refs.length →
          storeOk db (pr.1.getD i2 default) = false := by
        have hsF := (hoarePartition_spec (storeOk db) refs).2.2.2.2
        rw [← hprdef] at hsF
        exact hsF
      have hsplitF' : ∀ i2, pr.2 ≤ i2 → i2 < pr.1.length →
          storeOk db (pr.1.getD i2 default) = false := by
        intro i2 h1 h2
        exact hsplitF i2 h1 (by omega)
      have hintf : ∀ x ∈ pr.1.drop pr.2, storeOk db x = false := by
        intro x hx
        obtain ⟨i2, hi2, hgi2⟩ := mem_getD hx
        rw [List.length_drop] at hi2
        rw [← hgi2, getD_drop]
        exact hsplitF' (pr.2 + i2) (by omega) (by omega)
      have hglookup : ∀ hh,
          ((buildGraph (pr.1.take pr.2) (pr.1.drop pr.2)) hh).getD [] =
            (pr.1.drop pr.2).filter (fun x => x.previousReferral == hh) := by
        intro hh
        exact buildGraph_getD _ _ hh
      have h0a : (([] : List Referral) ++ pr.1.take pr.2).Nodup := by
        rw [List.nil_append]
        exact List.Nodup.sublist (List.take_sublist pr.2 pr.1) hndp
      have h0sub : ∀ x ∈ ([] : List Referral) ++ pr.1.take pr.2, x ∈ pr.1 := by
        intro x hx
        rw [List.nil_append] at hx
        exact (List.take_sublist pr.2 pr.1).subset hx
      have h0e : ∀ c ∈ ([] : List Referral) ++ pr.1.take pr.2,
          storeOk db c = true ∨
            ∃ p ∈ ([] : List Referral), p.codeHash = c.previousReferral := by
        intro c hc
        rw [List.nil_append] at hc
        exact Or.inl (pred_true_of_mem_take (storeOk db) pr.1 pr.2 hsplitT c hc)
      have h0s : SibOrd (pr.1.drop pr.2)
          (([] : List Referral) ++ pr.1.take pr.2) := by
        intro x y hxI hyI hprev2 hrank2 hyin
        exfalso
        rw [List.nil_append] at hyin
        have h1 : storeOk db y = true :=
          pred_true_of_mem_take (storeOk db) pr.1 pr.2 hsplitT y hyin
        have h2 : storeOk db y = false := hintf y hyI
        rw [h2] at h1
        exact Bool.false_ne_true h1
      have hmain := bfsGo_sibling db pr.1
        (buildGraph (pr.1.take pr.2) (pr.1.drop pr.2)) pr.2 hndP hglookup hintf
        refs.length (pr.1.take pr.2) [] h0a h0sub h0e h0s
      obtain ⟨hfin_nd, hfin_sub, hfin_s⟩ := hmain
      rw [hout, hqnil, List.append_nil] at hfin_nd hfin_sub hfin_s
      have hilen : i < pr.1.length := by omega
      have hgdi : (pr.1.drop pr.2).getD (i - pr.2) default =
          pr.1.getD i default := by
        rw [getD_drop, show pr.2 + (i - pr.2) = i from by omega]
      have hgdj : (pr.1.drop pr.2).getD (j - pr.2) default =
          pr.1.getD j default := by
        rw [getD_drop, show pr.2 + (j - pr.2) = j from by omega]
      have hxI : pr.1.getD i default ∈ pr.1.drop pr.2 := by
        rw [← hgdi]
        apply getD_mem
        rw [List.length_drop]
        omega
      have hyI : pr.1.getD j default ∈ pr.1.drop pr.2 := by
        rw [← hgdj]
        apply getD_mem
        rw [List.length_drop]
        omega
      have hrank : List.indexOf (pr.1.getD i default) (pr.1.drop pr.2) <
          List.indexOf (pr.1.getD j default) (pr.1.drop pr.2) := by
        rw [← hgdi, ← hgdj]
        rw [nodup_indexOf_getD _ hndI (i - pr.2)
            (by rw [List.length_drop]; omega),
          nodup_indexOf_getD _ hndI (j - pr.2)
            (by rw [List.length_drop]; omega)]
        omega
      have hperm2 : out.Perm pr.1 := by
        have hsubp : out ⊆ pr.1 := by
          intro x hx
          exact hfin_sub x hx
        have hsp := hfin_nd.subperm hsubp
        apply hsp.perm_of_length_le
        omega
      have hyout : pr.1.getD j default ∈ out :=
        hperm2.mem_iff.mpr (getD_mem pr.1 j hjlen)
      obtain ⟨hxout, hltout⟩ := hfin_s (pr.1.getD i default)
        (pr.1.getD j default) hxI hyI hprev hrank hyout
      exact hltout

/-- C3 amended witness: a batch of one root followed in the input by two of
its children; the partition sweep moves the root first and reverses the two
siblings, and the successful output emits the root segment first and the
siblings in post-partition interior scan order. -/
theorem orderReferrals_rootsFirst_witness :
    (OrderReferrals dbAnchor
        [⟨62, 1, 62, 9, 8, 61⟩, ⟨63, 1, 63, 10, 8, 61⟩, ⟨61, 1, 61, 8, 100, 0⟩] =
      (true, [⟨61, 1, 61, 8, 100, 0⟩, ⟨63, 1, 63, 10, 8, 61⟩,
        ⟨62, 1, 62, 9, 8, 61⟩])) ∧
    (([⟨61, 1, 61, 8, 100, 0⟩, ⟨63, 1, 63, 10, 8, 61⟩,
        ⟨62, 1, 62, 9, 8, 61⟩] : List Referral).take
        (hoarePartition (storeOk dbAnchor)
          [⟨62, 1, 62, 9, 8, 61⟩, ⟨63, 1, 63, 10, 8, 61⟩,
            ⟨61, 1, 61, 8, 100, 0⟩]).2 =
      (hoarePartition (storeOk dbAnchor)
          [⟨62, 1, 62, 9, 8, 61⟩, ⟨63, 1, 63, 10, 8, 61⟩,
            ⟨61, 1, 61, 8, 100, 0⟩]).1.take
        (hoarePartition (storeOk dbAnchor)
          [⟨62, 1, 62, 9, 8, 61⟩, ⟨63, 1, 63, 10, 8, 61⟩,
            ⟨61, 1, 61, 8, 100, 0⟩]).2 ∧
      ((([⟨62, 1, 62, 9, 8, 61⟩, ⟨63, 1, 63, 10, 8, 61⟩,
          ⟨61, 1, 61, 8, 100, 0⟩] : List Referral).map
            (fun r => r.codeHash)).Nodup →
        ∀ i j, (hoarePartition (storeOk dbAnchor)
            [⟨62, 1, 62, 9, 8, 61⟩, ⟨63, 1, 63, 10, 8, 61⟩,
              ⟨61, 1, 61, 8, 100, 0⟩]).2 ≤ i → i < j →
          j < (hoarePartition (storeOk dbAnchor)
            [⟨62, 1, 62, 9, 8, 61⟩, ⟨63, 1, 63, 10, 8, 61⟩,
              ⟨61, 1, 61, 8, 100, 0⟩]).1.length →
          ((hoarePartition (storeOk dbAnchor)
            [⟨62, 1, 62, 9, 8, 61⟩, ⟨63, 1, 63, 10, 8, 61⟩,
              ⟨61, 1, 61, 8, 100, 0⟩]).1.getD i default).previousReferral =
            ((hoarePartition (storeOk dbAnchor)
              [⟨62, 1, 62, 9, 8, 61⟩, ⟨63, 1, 63, 10, 8, 61⟩,
                ⟨61, 1, 61, 8, 100, 0⟩]).1.getD j default).previousReferral →
          List.indexOf ((hoarePartition (storeOk dbAnchor)
              [⟨62, 1, 62, 9, 8, 61⟩, ⟨63, 1, 63, 10, 8, 61⟩,
                ⟨61, 1, 61, 8, 100, 0⟩]).1.getD i default)
              [⟨61, 1, 61, 8, 100, 0⟩, ⟨63, 1, 63, 10, 8, 61⟩,
                ⟨62, 1, 62, 9, 8, 61⟩] <
            List.indexOf ((hoarePartition (storeOk dbAnchor)
              [⟨62, 1, 62, 9, 8, 61⟩, ⟨63, 1, 63, 10, 8, 61⟩,
                ⟨61, 1, 61, 8, 100, 0⟩]).1.getD j default)
              [⟨61, 1, 61, 8, 100, 0⟩, ⟨63, 1, 63, 10, 8, 61⟩,
                ⟨62, 1, 62, 9, 8, 61⟩])) :=
  ⟨by decide,
    orderReferrals_rootsFirst dbAnchor
      [⟨62, 1, 62, 9, 8, 61⟩, ⟨63, 1, 63, 10, 8, 61⟩, ⟨61, 1, 61, 8, 100, 0⟩]
      [⟨61, 1, 61, 8, 100, 0⟩, ⟨63, 1, 63, 10, 8, 61⟩, ⟨62, 1, 62, 9, 8, 61⟩]
      (by decide)⟩

end Merit
